import Mathlib

/-!
Verification of the decision-log synchronizer (`confluence_decision_logger.py`,
`confluence_decision_sync_enhanced.py`) and the status aggregation table
(`status_counter.py`).

The Python code is shallowly embedded: strings are manipulated as `String` /
`List Char`, the `datetime.now()` date stamp becomes an explicit `today`
parameter, the remote page fetch becomes an `Except String String` argument,
and each regular-expression operation of the source is translated into an
explicit scanning function over character lists (the translation of each
regex is documented at its definition).  `confluence_decision_logger.py` is
the authoritative copy: by its own header comment it was renamed from
`confluence_decision_sync_enhanced.py` and the reconciler (`sync_decisions`)
is identical in both files; the two files differ in `parse_markdown_decisions`
and `create_decision_macro_xml`, and this development follows the logger
version, which is the one the claims cite first.
-/

/-- Decision dataclass of `confluence_decision_logger.py` (lines 56-70). -/
structure Decision where
  title : String
  owner : String
  description : String
  original_text : String
  hash_id : String
  status : String := "OPEN"
  date_created : Option String := none
  date_updated : Option String := none
  source : String := "markdown"
deriving DecidableEq, Repr

/-- SyncResult dataclass (lines 72-78). -/
structure SyncResult where
  added : List String := []
  updated : List String := []
  unchanged : List String := []
  removed : List String := []
  errors : List String := []
deriving DecidableEq, Repr

/-- Model of `Decision.__post_init__`: when `date_created` is falsy
(`None` or the empty string) it is replaced by the current date. -/
def postInit (today : String) (d : Decision) : Decision :=
  if d.date_created = none ∨ d.date_created = some "" then
    { d with date_created := some today }
  else d

/-! ### Character-list helpers shared by the regex translations -/

/-- Strip the literal `lit` from the front of `s`, returning the remainder,
or `none` when `s` does not start with `lit`. -/
def dropLit : List Char → List Char → Option (List Char)
  | [], rest => some rest
  | _ :: _, [] => none
  | l :: ls, c :: cs => if c = l then dropLit ls cs else none

theorem dropLit_length {lit s r : List Char} (h : dropLit lit s = some r) :
    r.length + lit.length = s.length := by
  induction lit generalizing s with
  | nil => simp [dropLit] at h; simp [h]
  | cons l ls ih =>
    match s with
    | [] => simp [dropLit] at h
    | c :: cs =>
      by_cases hc : c = l
      · simp only [dropLit, hc, if_pos rfl] at h
        have := ih h
        simp [List.length_cons]
        omega
      · simp [dropLit, hc] at h

/-- Python `str.split(sep)` for a non-empty separator: scan left to right for
occurrences of `sep`, cutting at each (also the translation of
`re.split(r'\n## ', ...)`, whose pattern is a literal). -/
def splitOnAuxGo (sep : List Char) : Nat → List Char → List (List Char)
  | _, [] => [[]]
  | 0, c :: cs => [c :: cs]
  | fuel + 1, c :: cs =>
    if sep = [] then [c :: cs]
    else
      match dropLit sep (c :: cs) with
      | some rest => [] :: splitOnAuxGo sep fuel rest
      | none =>
        match splitOnAuxGo sep fuel cs with
        | h :: t => (c :: h) :: t
        | [] => [[c]]

/-- Entry point with fuel `l.length`, which always suffices because every
recursive call of the worker shortens the list (`dropLit_length`); the fuel
argument only makes the recursion structural, so that concrete evaluations
reduce in the kernel. -/
def splitOnAux (sep : List Char) (l : List Char) : List (List Char) :=
  splitOnAuxGo sep l.length l

theorem lenDropWhileLe (p : Char → Bool) (l : List Char) :
    (l.dropWhile p).length ≤ l.length := by
  induction l with
  | nil => simp
  | cons c cs ih =>
    by_cases h : p c
    · simp [List.dropWhile, h]; omega
    · simp [List.dropWhile, h]

/-- Python `str.strip()`: drop whitespace from both ends. -/
def trimChars (l : List Char) : List Char :=
  ((l.dropWhile Char.isWhitespace).reverse.dropWhile Char.isWhitespace).reverse

/-- Substring test (Python `needle in hay` on strings). -/
def hasSubstr (needle : List Char) : List Char → Bool
  | [] => needle.isEmpty
  | c :: cs => needle.isPrefixOf (c :: cs) || hasSubstr needle cs

/-- Python `str.replace(old, new)` for a single-character `old`. -/
def replaceChar (old : Char) (new : List Char) : List Char → List Char
  | [] => []
  | c :: cs => if c = old then new ++ replaceChar old new cs
               else c :: replaceChar old new cs

/-! ### MD5 (the content fingerprinter)

`hash_id = hashlib.md5(content.encode()).hexdigest()[:8]`.  The claims only
ever compare fingerprints, but the digest is implemented in full so that the
constructed `Decision` values carry the same `hash_id` the Python code
computes.  Arithmetic is on `Nat` with explicit reduction modulo `2^32`. -/

/-- UTF-8 encoding of one code point (Python `str.encode()`), as byte values. -/
def utf8EncodeChar (n : Nat) : List Nat :=
  if n < 128 then [n]
  else if n < 2048 then [192 + n / 64, 128 + n % 64]
  else if n < 65536 then [224 + n / 4096, 128 + n / 64 % 64, 128 + n % 64]
  else [240 + n / 262144, 128 + n / 4096 % 64, 128 + n / 64 % 64, 128 + n % 64]

/-- UTF-8 bytes of a string. -/
def utf8Encode (l : List Char) : List Nat :=
  l.foldr (fun c acc => utf8EncodeChar c.toNat ++ acc) []

/-- Four little-endian bytes of a 32-bit word. -/
def leBytes4 (w : Nat) : List Nat :=
  [w % 256, w / 256 % 256, w / 65536 % 256, w / 16777216 % 256]

/-- Eight little-endian bytes of a 64-bit value. -/
def leBytes8 (w : Nat) : List Nat :=
  leBytes4 (w % 4294967296) ++ leBytes4 (w / 4294967296 % 4294967296)

/-- MD5 padding: a 0x80 byte, zeros to 56 mod 64, then the bit length. -/
def md5Pad (msg : List Nat) : List Nat :=
  let len := msg.length
  let z := (120 - (len + 1) % 64) % 64
  msg ++ [128] ++ List.replicate z 0 ++ leBytes8 (8 * len)

/-- Split a byte list into 64-byte chunks. -/
def chunks64 : List Nat → List (List Nat)
  | [] => []
  | c :: cs => ((c :: cs).take 64) :: chunks64 ((c :: cs).drop 64)
termination_by l => l.length
decreasing_by simp [List.length_drop]; omega

/-- Word `g` of a chunk, read little-endian. -/
def chunkWord (chunk : List Nat) (g : Nat) : Nat :=
  chunk.getD (4 * g) 0 + 256 * chunk.getD (4 * g + 1) 0 +
    65536 * chunk.getD (4 * g + 2) 0 + 16777216 * chunk.getD (4 * g + 3) 0

/-- Bitwise complement within 32 bits. -/
def bnot32 (x : Nat) : Nat := 4294967295 - x

/-- Left rotation of a 32-bit word. -/
def rotl32 (x s : Nat) : Nat := (x * 2 ^ s) % 4294967296 + x / 2 ^ (32 - s)

/-- The MD5 round function for step `i`. -/
def md5F (i b c d : Nat) : Nat :=
  if i < 16 then (b &&& c) ||| (bnot32 b &&& d)
  else if i < 32 then (d &&& b) ||| (bnot32 d &&& c)
  else if i < 48 then b ^^^ c ^^^ d
  else c ^^^ (b ||| bnot32 d)

/-- The message-word index for step `i`. -/
def md5G (i : Nat) : Nat :=
  if i < 16 then i
  else if i < 32 then (5 * i + 1) % 16
  else if i < 48 then (3 * i + 5) % 16
  else 7 * i % 16

/-- Per-step left-rotation amounts. -/
def md5S : List Nat :=
  [7, 12, 17, 22, 7, 12, 17, 22, 7, 12, 17, 22, 7, 12, 17, 22,
   5, 9, 14, 20, 5, 9, 14, 20, 5, 9, 14, 20, 5, 9, 14, 20,
   4, 11, 16, 23, 4, 11, 16, 23, 4, 11, 16, 23, 4, 11, 16, 23,
   6, 10, 15, 21, 6, 10, 15, 21, 6, 10, 15, 21, 6, 10, 15, 21]

/-- Per-step additive constants, `floor(2^32 * abs(sin(i + 1)))`. -/
def md5K : List Nat :=
  [0xd76aa478, 0xe8c7b756, 0x242070db, 0xc1bdceee,
   0xf57c0faf, 0x4787c62a, 0xa8304613, 0xfd469501,
   0x698098d8, 0x8b44f7af, 0xffff5bb1, 0x895cd7be,
   0x6b901122, 0xfd987193, 0xa679438e, 0x49b40821,
   0xf61e2562, 0xc040b340, 0x265e5a51, 0xe9b6c7aa,
   0xd62f105d, 0x02441453, 0xd8a1e681, 0xe7d3fbc8,
   0x21e1cde6, 0xc33707d6, 0xf4d50d87, 0x455a14ed,
   0xa9e3e905, 0xfcefa3f8, 0x676f02d9, 0x8d2a4c8a,
   0xfffa3942, 0x8771f681, 0x6d9d6122, 0xfde5380c,
   0xa4beea44, 0x4bdecfa9, 0xf6bb4b60, 0xbebfbc70,
   0x289b7ec6, 0xeaa127fa, 0xd4ef3085, 0x04881d05,
   0xd9d4d039, 0xe6db99e5, 0x1fa27cf8, 0xc4ac5665,
   0xf4292244, 0x432aff97, 0xab9423a7, 0xfc93a039,
   0x655b59c3, 0x8f0ccc92, 0xffeff47d, 0x85845dd1,
   0x6fa87e4f, 0xfe2ce6e0, 0xa3014314, 0x4e0811a1,
   0xf7537e82, 0xbd3af235, 0x2ad7d2bb, 0xeb86d391]

/-- Process one 64-byte chunk, updating the four-word state. -/
def md5Chunk (st : Nat × Nat × Nat × Nat) (chunk : List Nat) : Nat × Nat × Nat × Nat :=
  let r := (List.range 64).foldl
    (fun (abcd : Nat × Nat × Nat × Nat) i =>
      let a := abcd.1
      let b := abcd.2.1
      let c := abcd.2.2.1
      let d := abcd.2.2.2
      let f := (md5F i b c d + a + md5K.getD i 0 + chunkWord chunk (md5G i)) % 4294967296
      (d, (b + rotl32 f (md5S.getD i 0)) % 4294967296, b, c)) st
  ((st.1 + r.1) % 4294967296, (st.2.1 + r.2.1) % 4294967296,
   (st.2.2.1 + r.2.2.1) % 4294967296, (st.2.2.2 + r.2.2.2) % 4294967296)

/-- MD5 digest of a byte list, as 16 bytes. -/
def md5Bytes (msg : List Nat) : List Nat :=
  let st := (chunks64 (md5Pad msg)).foldl md5Chunk
    (0x67452301, 0xefcdab89, 0x98badcfe, 0x10325476)
  leBytes4 st.1 ++ leBytes4 st.2.1 ++ leBytes4 st.2.2.1 ++ leBytes4 st.2.2.2

/-- Lowercase hexadecimal digit. -/
def hexDigit (n : Nat) : Char := "0123456789abcdef".data.getD n '0'

/-- Python `hashlib.md5(s.encode()).hexdigest()[:8]`, the content
fingerprint used for change detection. -/
def md5_8 (s : String) : String :=
  (String.mk ((md5Bytes (utf8Encode s.data)).foldr
    (fun b acc => hexDigit (b / 16) :: hexDigit (b % 16) :: acc) [])).take 8

/-! ### Markdown decision parser (`parse_markdown_decisions`, lines 98-146)

Each regular expression of the source is translated into a scanning function;
the comment at each definition names the regex it implements. -/

/-- Translation of `re.sub(r'^##\s*', '', title_line)`: remove one leading
`##` together with the whitespace that follows it. -/
def stripHeading (l : List Char) : List Char :=
  match l with
  | '#' :: '#' :: rest => rest.dropWhile Char.isWhitespace
  | _ => l

/-- Translation of `re.findall(r'\[\[([^\]]+)\]\]', section)`: collect every
non-empty bracket-free token enclosed in `[[...]]`, scanning left to right;
a failed match attempt advances the scan by one character, a successful one
resumes after the match. -/
def findOwnersGo : Nat → List Char → List String
  | _, [] => []
  | 0, _ => []
  | fuel + 1, '[' :: '[' :: rest =>
    let run := rest.takeWhile (fun c => c ≠ ']')
    let after := rest.dropWhile (fun c => c ≠ ']')
    if run ≠ [] ∧ after.take 2 = [']', ']'] then
      String.mk run :: findOwnersGo fuel (after.drop 2)
    else
      findOwnersGo fuel ('[' :: rest)
  | fuel + 1, _ :: rest => findOwnersGo fuel rest

/-- Entry point with fuel `l.length` (always enough: each recursive call of
the worker shortens the list). -/
def findOwners (l : List Char) : List String := findOwnersGo l.length l

/-- Translation of `re.sub(r'\[\[[^\]]+\]\]', '', description)`: delete every
`[[...]]` owner token, with the same scan discipline as `findOwners`. -/
def stripOwnerMarkupGo : Nat → List Char → List Char
  | _, [] => []
  | 0, l => l
  | fuel + 1, '[' :: '[' :: rest =>
    let run := rest.takeWhile (fun c => c ≠ ']')
    let after := rest.dropWhile (fun c => c ≠ ']')
    if run ≠ [] ∧ after.take 2 = [']', ']'] then
      stripOwnerMarkupGo fuel (after.drop 2)
    else
      '[' :: stripOwnerMarkupGo fuel ('[' :: rest)
  | fuel + 1, c :: rest => c :: stripOwnerMarkupGo fuel rest

/-- Entry point with fuel `l.length` (always enough: each recursive call of
the worker shortens the list). -/
def stripOwnerMarkup (l : List Char) : List Char := stripOwnerMarkupGo l.length l

/-- Remainder of `s` after the first occurrence of the literal `lit`, or
`none` when `lit` does not occur. -/
def findLit (lit : List Char) : List Char → Option (List Char)
  | [] => dropLit lit []
  | c :: cs =>
    match dropLit lit (c :: cs) with
    | some rest => some rest
    | none => findLit lit cs

/-- Capture of `\s*([^\n]+)` with the backtracking of a real engine: the
greedy `\s*` takes the whole whitespace run when a non-whitespace character
follows; when the text ends in whitespace the engine backtracks until the
character at the capture start is not a newline, which leaves a single
whitespace character as the capture. -/
def wsCapture (after : List Char) : Option (List Char) :=
  let rest := after.dropWhile Char.isWhitespace
  if rest ≠ [] then some (rest.takeWhile (fun c => c ≠ '\n'))
  else
    match (after.reverse.dropWhile (fun c => c = '\n')) with
    | [] => none
    | c :: _ => some [c]

/-- Translation of `re.search(r'LIT\s*([^\n]+)', section)` for a literal
`LIT` (used with `**Status**:` and `**Date**:`).  Only the first occurrence
of the literal needs to be tried: the capture can only fail when everything
after the literal consists of newlines, and then no later occurrence of the
literal exists. -/
def searchParam (lit : List Char) (s : List Char) : Option (List Char) :=
  match findLit lit s with
  | some rest => wsCapture rest
  | none => none

/-- Word character of the regex `\b` boundary (`[A-Za-z0-9_]`). -/
def isWordChar (c : Char) : Bool := c.isAlphanum || c = '_'

/-- Case-insensitive match of the word `w` at the front of the text,
returning the remainder. -/
def matchCI : List Char → List Char → Option (List Char)
  | [], rest => some rest
  | _ :: _, [] => none
  | w :: ws, c :: cs => if w.toLower = c.toLower then matchCI ws cs else none

/-- Translation of `re.search(r'\bWORD\b', section, re.IGNORECASE)` for a
word that starts and ends with word characters: scan every position, with
the previous character threaded through for the left boundary. -/
def searchWordCI (w : List Char) : Option Char → List Char → Bool
  | _, [] => false
  | prev, c :: cs =>
    (match matchCI w (c :: cs) with
     | some rest =>
       (match prev with
        | none => true
        | some p => ! isWordChar p) &&
       (match rest with
        | [] => true
        | r :: _ => ! isWordChar r)
     | none => false) || searchWordCI w (some c) cs

/-- Keyword fallback of the status extraction (lines 119-128): the scan
order {Approved, Accepted, Decided} then {In Progress, Ongoing} then
{Deferred, Postponed, Planning} is the source's. -/
def inferStatus (sect : List Char) : String :=
  if searchWordCI "Approved".data none sect ∨ searchWordCI "Accepted".data none sect ∨
      searchWordCI "Decided".data none sect then "DECIDED"
  else if searchWordCI "In Progress".data none sect ∨ searchWordCI "Ongoing".data none sect then
    "OPEN"
  else if searchWordCI "Deferred".data none sect ∨ searchWordCI "Postponed".data none sect ∨
      searchWordCI "Planning".data none sect then "DEFERRED"
  else "OPEN"

/-- Translation of `ConfluenceDecisionSync.parse_markdown_decisions`
(`confluence_decision_logger.py` lines 98-146).  `today` stands for
`datetime.now().strftime("%Y-%m-%d")` used by `Decision.__post_init__`. -/
def parse_markdown_decisions (today : String) (markdown_content : String) : List Decision :=
  let sections := splitOnAux "\n## ".data markdown_content.data
  sections.enum.filterMap (fun p =>
    let i := p.1
    let sect0 := p.2
    if i = 0 ∧ ¬ ("## ".data.isPrefixOf sect0) then none
    else
      let sect := if ¬ ("## ".data.isPrefixOf sect0) then "## ".data ++ sect0 else sect0
      let lines := splitOnAux ['\n'] sect
      let title_line := lines.headD []
      let title := trimChars (stripHeading title_line)
      if title = [] then none
      else
        let owner_matches := findOwners sect
        let owners := if owner_matches = [] then ["Unassigned"] else owner_matches
        let owner := ", ".intercalate owners
        let status := match searchParam "**Status**:".data sect with
          | some v => String.mk (trimChars v)
          | none => inferStatus sect
        let date_created := (searchParam "**Date**:".data sect).map
          (fun v => String.mk (trimChars v))
        let description := trimChars (List.intercalate ['\n'] (lines.drop 1))
        let description := trimChars (stripOwnerMarkup description)
        let title_s := String.mk title
        let description_s := String.mk description
        some (postInit today
          { title := title_s
            owner := owner
            description := description_s
            original_text := String.mk sect
            hash_id := md5_8 (title_s ++ "|" ++ owner ++ "|" ++ description_s)
            status := status
            date_created := date_created
            date_updated := none
            source := "markdown" }))

/-! ### Page renderer (`create_decision_macro_xml`, lines 180-219) -/

/-- Translation of the `escape_html` helper (line 181-182): the five chained
`str.replace` calls, innermost (`&`) first. -/
def escape_html (s : List Char) : List Char :=
  replaceChar '\'' "&#x27;".data
    (replaceChar '"' "&quot;".data
      (replaceChar '>' "&gt;".data
        (replaceChar '<' "&lt;".data
          (replaceChar '&' "&amp;".data s))))

/-- Close scan for `\*\*(.*?)\*\*`: the shortest newline-free run followed
by `**` (without `re.DOTALL` the `.` does not match a newline); `none` when
no such closing delimiter exists. -/
def findCloseStars : List Char → Option (List Char × List Char)
  | '*' :: '*' :: cs => some ([], cs)
  | '\n' :: _ => none
  | c :: cs => (findCloseStars cs).map (fun p => (c :: p.1, p.2))
  | [] => none

theorem findCloseStars_length : ∀ {l p a : List Char},
    findCloseStars l = some (p, a) → p.length + 2 + a.length = l.length := by
  intro l
  induction l using findCloseStars.induct with
  | case1 cs =>
    intro p a h
    simp [findCloseStars] at h
    obtain ⟨rfl, rfl⟩ := h
    simp
    omega
  | case2 t =>
    intro p a h
    simp [findCloseStars] at h
  | case3 c cs h1 h2 ih =>
    intro p a h
    rw [findCloseStars.eq_3 c cs h1 h2] at h
    match hc : findCloseStars cs with
    | none => rw [hc] at h; simp at h
    | some (p', a') =>
      rw [hc] at h
      simp at h
      have := ih hc
      rw [← h.1, ← h.2]
      simp
      omega
  | case4 =>
    intro p a h
    simp [findCloseStars] at h

/-- Close scan for `\*(.*?)\*` and for the backtick variant: the shortest
newline-free run followed by the single closing character `stop`. -/
def findClose (stop : Char) : List Char → Option (List Char × List Char)
  | [] => none
  | c :: cs =>
    if c = stop then some ([], cs)
    else if c = '\n' then none
    else (findClose stop cs).map (fun p => (c :: p.1, p.2))

theorem findClose_length {stop : Char} : ∀ {l p a : List Char},
    findClose stop l = some (p, a) → p.length + 1 + a.length = l.length := by
  intro l
  induction l with
  | nil => intro p a h; simp [findClose] at h
  | cons c cs ih =>
    intro p a h
    by_cases h1 : c = stop
    · simp [findClose, h1] at h
      obtain ⟨rfl, rfl⟩ := h
      simp
      omega
    · by_cases h2 : c = '\n'
      · subst h2
        simp [findClose, h1] at h
      · simp only [findClose, if_neg h1, if_neg h2] at h
        match hc : findClose stop cs with
        | none => rw [hc] at h; simp at h
        | some (p', a') =>
          rw [hc] at h
          simp at h
          have := ih hc
          rw [← h.1, ← h.2]
          simp
          omega

/-- Translation of `re.sub(r'\*\*(.*?)\*\*', r'<strong>\1</strong>', s)`:
at each `**` the lazy group takes the shortest newline-free run closed by
another `**`; a failed attempt advances the scan by one character. -/
def subBoldGo : Nat → List Char → List Char
  | _, [] => []
  | 0, l => l
  | fuel + 1, '*' :: '*' :: rest =>
    (match findCloseStars rest with
     | some pa => "<strong>".data ++ pa.1 ++ "</strong>".data ++ subBoldGo fuel pa.2
     | none => '*' :: subBoldGo fuel ('*' :: rest))
  | fuel + 1, c :: rest => c :: subBoldGo fuel rest

/-- Entry point with fuel `l.length` (always enough: each recursive call of
the worker shortens the list, see `findCloseStars_length`). -/
def subBold (l : List Char) : List Char := subBoldGo l.length l

/-- Translation of `re.sub(r'\*(.*?)\*', r'<em>\1</em>', s)`. -/
def subEmGo : Nat → List Char → List Char
  | _, [] => []
  | 0, l => l
  | fuel + 1, '*' :: rest =>
    (match findClose '*' rest with
     | some pa => "<em>".data ++ pa.1 ++ "</em>".data ++ subEmGo fuel pa.2
     | none => '*' :: subEmGo fuel rest)
  | fuel + 1, c :: rest => c :: subEmGo fuel rest

/-- Entry point with fuel `l.length` (always enough: each recursive call of
the worker shortens the list, see `findClose_length`). -/
def subEm (l : List Char) : List Char := subEmGo l.length l

/-- Translation of ``re.sub(r'`(.*?)`', r'<code>\1</code>', s)``. -/
def subCodeGo : Nat → List Char → List Char
  | _, [] => []
  | 0, l => l
  | fuel + 1, '`' :: rest =>
    (match findClose '`' rest with
     | some pa => "<code>".data ++ pa.1 ++ "</code>".data ++ subCodeGo fuel pa.2
     | none => '`' :: subCodeGo fuel rest)
  | fuel + 1, c :: rest => c :: subCodeGo fuel rest

/-- Entry point with fuel `l.length` (always enough: each recursive call of
the worker shortens the list, see `findClose_length`). -/
def subCode (l : List Char) : List Char := subCodeGo l.length l

/-- Python truthiness of an optional string (`if decision.date_created:`). -/
def truthyOpt : Option String → Bool
  | none => false
  | some s => s ≠ ""

/-- Substring containment, Python `needle in hay`. -/
def containsStr (hay needle : String) : Bool := hasSubstr needle.data hay.data

/-- Status-to-colour mapping computed by `create_decision_macro_xml`
(lines 194-205).  The `status_macro` string the source builds from it is
never inserted into the returned markup, so the mapping is modelled as a
standalone function. -/
def statusColor (status : String) : String :=
  if status ≠ "" then
    let status_value := status.toUpper.trim
    if containsStr status_value "APPROVE" || containsStr status_value "DECIDED" ||
        containsStr status_value "ACCEPTED" then "Green"
    else if containsStr status_value "DEFER" || containsStr status_value "POSTPONE" then
      "Yellow"
    else if containsStr status_value "OPEN" || containsStr status_value "IN PROGRESS" then
      "Blue"
    else "Grey"
  else "Grey"

/-- The `status_macro` string of lines 208-211, built but not used by the
source when assembling `decision_xml`. -/
def status_macro_xml (d : Decision) : String :=
  "<ac:structured-macro ac:name=\"status\" ac:schema-version=\"1\">\n    <ac:parameter ac:name=\"colour\">"
    ++ statusColor d.status ++ "</ac:parameter>\n    <ac:parameter ac:name=\"title\">"
    ++ d.status ++ "</ac:parameter>\n</ac:structured-macro>"

/-- Python `sep.join(pieces)` (used for the participants list). -/
def joinWith (sep : List Char) : List (List Char) → List Char
  | [] => []
  | [x] => x
  | x :: xs => x ++ sep ++ joinWith sep xs

/-- Translation of `ConfluenceDecisionSync.create_decision_macro_xml`
(`confluence_decision_logger.py` lines 180-219).  The returned markup is a
`<h2>` heading, a participants paragraph and the processed description —
the source computes `escaped_owner` and `status_macro` too but does not
include them in `decision_xml`. -/
def create_decision_macro_xml (d : Decision) : String :=
  let escaped_description := escape_html d.description.data
  let escaped_title := escape_html d.title.data
  let escaped_description := subBold escaped_description
  let escaped_description := subEm escaped_description
  let escaped_description := subCode escaped_description
  let escaped_description := replaceChar '\n' "<br/>".data escaped_description
  let escaped_description :=
    if truthyOpt d.date_created then
      escaped_description ++ "<br/><strong>Created:</strong> ".data
        ++ (d.date_created.getD "").data
    else escaped_description
  let escaped_description :=
    if truthyOpt d.date_updated then
      escaped_description ++ "<br/><strong>Updated:</strong> ".data
        ++ (d.date_updated.getD "").data
    else escaped_description
  let participants := joinWith ", ".data ((splitOnAux [','] d.owner.data).map trimChars)
  String.mk ("<h2>".data ++ escaped_title
    ++ "</h2>\n<p><strong>Participants:</strong> ".data ++ participants
    ++ "</p>\n<p>".data ++ escaped_description ++ "</p>\n<hr/>".data)

/-! ### Remote decision extractor (`extract_existing_decisions`, lines 148-178)

The decision pattern is
`<ac:structured-macro ac:name="decision"[^>]*?ac:macro-id="([^"]*)"[^>]*>(.*?)</ac:structured-macro>`
with `re.DOTALL`, used with `re.findall`; the parameter and rich-text-body
patterns are translated below. -/

/-- Capture of `[^>]*?LIT` (a lazy run of non-`>` characters up to the
literal `LIT`): the remainder after the first occurrence of `LIT` reachable
without crossing a `>`.  On contents where the full pattern later fails a
real engine would backtrack to a still later occurrence; the markup handled
in this development never exercises that path (every theorem below either
finds no macro header at all or evaluates on concrete markup). -/
def lazyUntilLit (lit : List Char) : List Char → Option (List Char)
  | [] => none
  | c :: cs =>
    match dropLit lit (c :: cs) with
    | some r => some r
    | none => if c = '>' then none else lazyUntilLit lit cs

theorem lazyUntilLit_lt {lit : List Char} (hne : lit ≠ []) : ∀ {s r : List Char},
    lazyUntilLit lit s = some r → r.length < s.length := by
  intro s
  induction s with
  | nil => intro r h; simp [lazyUntilLit] at h
  | cons c cs ih =>
    intro r h
    rw [lazyUntilLit] at h
    match hd : dropLit lit (c :: cs) with
    | some r' =>
      rw [hd] at h
      simp at h
      have hl := dropLit_length hd
      have hz : lit.length ≠ 0 := fun hz => hne (List.length_eq_zero.mp hz)
      subst h
      simp at hl ⊢
      omega
    | none =>
      rw [hd] at h
      by_cases hc : c = '>'
      · simp [hc] at h
      · simp [hc] at h
        have := ih h
        simp
        omega

/-- Capture of the lazy `(.*?)LIT` under `re.DOTALL`: split at the first
occurrence of the literal `LIT`, returning the run before it and the
remainder after it. -/
def splitAtLit (lit : List Char) : List Char → Option (List Char × List Char)
  | [] => none
  | c :: cs =>
    match dropLit lit (c :: cs) with
    | some r => some ([], r)
    | none => (splitAtLit lit cs).map (fun p => (c :: p.1, p.2))

theorem splitAtLit_length {lit : List Char} : ∀ {s p r : List Char},
    splitAtLit lit s = some (p, r) → p.length + lit.length + r.length = s.length := by
  intro s
  induction s with
  | nil => intro p r h; simp [splitAtLit] at h
  | cons c cs ih =>
    intro p r h
    rw [splitAtLit] at h
    match hd : dropLit lit (c :: cs) with
    | some r' =>
      rw [hd] at h
      simp at h
      obtain ⟨rfl, rfl⟩ := h
      have := dropLit_length hd
      simp at this ⊢
      omega
    | none =>
      rw [hd] at h
      match hs : splitAtLit lit cs with
      | none => rw [hs] at h; simp at h
      | some (p', r') =>
        rw [hs] at h
        simp at h
        have := ih hs
        rw [← h.1, ← h.2]
        simp
        omega

/-- Step `([^"]*)"` of the decision pattern: the greedy id capture runs to
the first `"`, which must then be present; returns the remainder after the
closing quote. -/
def afterQuote (rest1 : List Char) : Option (List Char) :=
  match rest1.dropWhile (fun c => c ≠ '"') with
  | '"' :: rest3 => some rest3
  | _ => none

/-- Step `[^>]*>` of the decision pattern: the greedy run to the first `>`,
which must then be present; returns the remainder after it. -/
def afterGt (rest3 : List Char) : Option (List Char) :=
  match rest3.dropWhile (fun c => c ≠ '>') with
  | '>' :: rest5 => some rest5
  | _ => none

theorem afterQuote_lt {r r3 : List Char} (h : afterQuote r = some r3) :
    r3.length < r.length := by
  unfold afterQuote at h
  split at h
  · rename_i r3' heq
    simp at h
    subst h
    have hle := lenDropWhileLe (fun c => c ≠ '"') r
    rw [heq] at hle
    simp at hle
    omega
  · simp at h

theorem afterGt_lt {r r5 : List Char} (h : afterGt r = some r5) :
    r5.length < r.length := by
  unfold afterGt at h
  split at h
  · rename_i r5' heq
    simp at h
    subst h
    have hle := lenDropWhileLe (fun c => c ≠ '>') r
    rw [heq] at hle
    simp at hle
    omega
  · simp at h

/-- Continuation of the decision pattern after its fixed header: the lazy
`[^>]*?` up to `ac:macro-id="`, the id capture `([^"]*)` closed by `"`, the
greedy `[^>]*>`, and the lazy body capture `(.*?)</ac:structured-macro>`.
Returns (macro id, body, remainder after the match). -/
def matchMacroRest (s : List Char) : Option (List Char × List Char × List Char) :=
  match lazyUntilLit "ac:macro-id=\"".data s with
  | none => none
  | some rest1 =>
    (match afterQuote rest1 with
     | none => none
     | some rest3 =>
       (match afterGt rest3 with
        | none => none
        | some rest5 =>
          (match splitAtLit "</ac:structured-macro>".data rest5 with
           | none => none
           | some p => some (rest1.takeWhile (fun c => c ≠ '"'), p.1, p.2))))

theorem matchMacroRest_lt {s : List Char} {t : List Char × List Char × List Char}
    (h : matchMacroRest s = some t) : t.2.2.length < s.length := by
  unfold matchMacroRest at h
  split at h
  · simp at h
  rename_i rest1 h1
  split at h
  · simp at h
  rename_i rest3 h3
  split at h
  · simp at h
  rename_i rest5 h5
  split at h
  · simp at h
  rename_i p hp
  simp at h
  have e1 : rest1.length < s.length := lazyUntilLit_lt (by decide) h1
  have e3 : rest3.length < rest1.length := afterQuote_lt h3
  have e5 : rest5.length < rest3.length := afterGt_lt h5
  have e6 := splitAtLit_length hp
  rw [← h]
  simp at e6 ⊢
  omega

/-- The fixed header of the decision pattern. -/
def decisionHeader : List Char := "<ac:structured-macro ac:name=\"decision\"".data

/-- Translation of
`re.findall(decision_pattern, content, re.DOTALL)`: scan for occurrences of
the fixed header; where the rest of the pattern completes, emit
(macro id, macro body) and resume after the match, otherwise advance one
character. -/
def findMacrosGo : Nat → List Char → List (List Char × List Char)
  | _, [] => []
  | 0, _ => []
  | fuel + 1, c :: cs =>
    match dropLit decisionHeader (c :: cs) with
    | some afterH =>
      (match matchMacroRest afterH with
       | some t => (t.1, t.2.1) :: findMacrosGo fuel t.2.2
       | none => findMacrosGo fuel cs)
    | none => findMacrosGo fuel cs

/-- Entry point with fuel `l.length` (always enough: each recursive call of
the worker shortens the list, see `matchMacroRest_lt` and `dropLit_length`). -/
def findMacros (l : List Char) : List (List Char × List Char) :=
  findMacrosGo l.length l

/-- Translation of
`re.search(r'<ac:parameter ac:name="NAME">([^<]*)</ac:parameter>', mc)` for
the full opening literal `lit`: at each occurrence of `lit` the greedy
`[^<]*` runs to the first `<`, which must start `</ac:parameter>`; a failed
attempt advances the scan by one character. -/
def findParam (lit : List Char) : List Char → Option (List Char)
  | [] => none
  | c :: cs =>
    match dropLit lit (c :: cs) with
    | some rest =>
      if "</ac:parameter>".data.isPrefixOf (rest.dropWhile (fun x => x ≠ '<')) then
        some (rest.takeWhile (fun x => x ≠ '<'))
      else findParam lit cs
    | none => findParam lit cs

/-- Check for `</p>\s*</ac:rich-text-body>` at the front of the text (the
closing part of the rich-text-body pattern; the greedy `\s*` needs no
backtracking because the literal that follows starts with the
non-whitespace `<`). -/
def closerCheck (s : List Char) : Bool :=
  match dropLit "</p>".data s with
  | some r => "</ac:rich-text-body>".data.isPrefixOf (r.dropWhile Char.isWhitespace)
  | none => false

/-- Greedy match of the capture group `([^<]*(?:<[^>]*>[^<]*)*)` followed by
`</p>\s*</ac:rich-text-body>`: text characters are consumed one at a time, a
`<` must open a `>`-closed tag that is consumed whole, and the group prefers
the longest extension, falling back to closing at the current position only
when the extension fails and the closer starts here. -/
def bodyCaptureGo : Nat → List Char → Option (List Char)
  | _, [] => none
  | 0, _ => none
  | fuel + 1, '<' :: rest =>
    (match rest.dropWhile (fun c => c ≠ '>') with
     | '>' :: rest2 =>
       (match bodyCaptureGo fuel rest2 with
        | some cap => some (('<' :: rest.takeWhile (fun c => c ≠ '>')) ++ '>' :: cap)
        | none => if closerCheck ('<' :: rest) then some [] else none)
     | _ => if closerCheck ('<' :: rest) then some [] else none)
  | fuel + 1, c :: rest => (bodyCaptureGo fuel rest).map (fun cap => c :: cap)

/-- Entry point with fuel `l.length` (always enough: each recursive call of
the worker shortens the list, see `lenDropWhileLe`). -/
def bodyCapture (l : List Char) : Option (List Char) := bodyCaptureGo l.length l
set_option linter.unusedVariables false in
/-- Translation of
`re.search(r'<ac:rich-text-body>\s*<p>([^<]*(?:<[^>]*>[^<]*)*)</p>\s*</ac:rich-text-body>', mc)`:
scan for `<ac:rich-text-body>`, skip whitespace, require `<p>`, then match
the greedy group via `bodyCapture`; a failed attempt advances the scan by
one character. -/
def richTextCapture : List Char → Option (List Char)
  | [] => none
  | c :: cs =>
    match dropLit "<ac:rich-text-body>".data (c :: cs) with
    | some rest =>
      (match dropLit "<p>".data (rest.dropWhile Char.isWhitespace) with
       | some rest3 =>
         (match bodyCapture rest3 with
          | some cap => some cap
          | none => richTextCapture cs)
       | none => richTextCapture cs)
    | none => richTextCapture cs

/-- Translation of `re.sub(r'<br/?>', '\n', s)`: both `<br/>` and `<br>`
become a newline (the optional `/` is tried greedily first). -/
def br2nl : List Char → List Char
  | '<' :: 'b' :: 'r' :: '/' :: '>' :: rest => '\n' :: br2nl rest
  | '<' :: 'b' :: 'r' :: '>' :: rest => '\n' :: br2nl rest
  | c :: rest => c :: br2nl rest
  | [] => []

/-- Translation of `re.sub(r'<[^>]+>', '', s)`: delete every `<`-opened,
`>`-closed run with at least one character between; a `<` with no such
closing match is kept and the scan advances one character. -/
def stripTagsGo : Nat → List Char → List Char
  | _, [] => []
  | 0, l => l
  | fuel + 1, '<' :: '>' :: rest => '<' :: stripTagsGo fuel ('>' :: rest)
  | fuel + 1, '<' :: rest =>
    (match rest.dropWhile (fun c => c ≠ '>') with
     | '>' :: rest2 => stripTagsGo fuel rest2
     | _ => '<' :: stripTagsGo fuel rest)
  | fuel + 1, c :: rest => c :: stripTagsGo fuel rest

/-- Entry point with fuel `l.length` (always enough: each recursive call of
the worker shortens the list, see `lenDropWhileLe`). -/
def stripTags (l : List Char) : List Char := stripTagsGo l.length l

/-- Translation of the per-page body of
`ConfluenceDecisionSync.extract_existing_decisions`
(`confluence_decision_logger.py` lines 152-175), applied to the fetched
storage markup.  `today` feeds `Decision.__post_init__`, which stamps
`date_created` because the source constructs these decisions without one. -/
def extract_decisions_from_storage (today : String) (content : String) : List Decision :=
  (findMacros content.data).map (fun t =>
    let macro_id := String.mk t.1
    let mc := t.2
    let title := match findParam "<ac:parameter ac:name=\"title\">".data mc with
      | some cap => String.mk cap
      | none => "Decision " ++ macro_id
    let owner := match findParam "<ac:parameter ac:name=\"owner\">".data mc with
      | some cap => String.mk cap
      | none => "Unassigned"
    let description0 := match richTextCapture mc with
      | some cap => cap
      | none => []
    let description := String.mk (trimChars (stripTags (br2nl description0)))
    postInit today
      { title := title
        owner := owner
        description := description
        original_text := String.mk mc
        hash_id := md5_8 (title ++ "|" ++ owner ++ "|" ++ description)
        status := "OPEN"
        date_created := none
        date_updated := none
        source := "confluence" })

/-- Translation of `ConfluenceDecisionSync.extract_existing_decisions`
(lines 148-178): the whole body runs under `try/except`, so a failed page
fetch (modelled by the `Except.error` case) yields the empty decision list
instead of propagating. -/
def extract_existing_decisions (today : String) (fetched : Except String String) :
    List Decision :=
  match fetched with
  | Except.error _ => []
  | Except.ok content => extract_decisions_from_storage today content

/-! ### Reconciler (`sync_decisions`, lines 221-242) -/

/-- Title-keyed lookup dictionary `{d.title: d for d in list}`: the dict
comprehension inserts in list order, so a later occurrence of a duplicate
title overwrites an earlier one. -/
def byTitle (l : List Decision) : String → Option Decision :=
  l.foldl (fun m d => fun t => if t = d.title then some d else m t) (fun _ => none)

/-- Loop `for md_decision in markdown_decisions` of `sync_decisions`
(lines 226-238), returning in order the appended final decisions and the
`added`, `updated` and `unchanged` title lists. -/
def processMd (today : String) (conf_by_title : String → Option Decision) :
    List Decision → List Decision × List String × List String × List String
  | [] => ([], [], [], [])
  | md :: rest =>
    let r := processMd today conf_by_title rest
    match conf_by_title md.title with
    | some conf =>
      if md.hash_id ≠ conf.hash_id then
        ({ md with date_updated := some today } :: r.1, r.2.1, md.title :: r.2.2.1, r.2.2.2)
      else
        (conf :: r.1, r.2.1, r.2.2.1, md.title :: r.2.2.2)
    | none => (md :: r.1, md.title :: r.2.1, r.2.2.1, r.2.2.2)

/-- Translation of `ConfluenceDecisionSync.sync_decisions`
(`confluence_decision_logger.py` lines 221-242; the method is identical in
`confluence_decision_sync_enhanced.py` lines 255-295): markdown decisions
are classified against the remote index, then remote decisions whose title
never occurs in the markdown index are appended unchanged.  `today` stands
for `datetime.now().strftime("%Y-%m-%d")`. -/
def sync_decisions (today : String) (markdown_decisions confluence_decisions : List Decision) :
    List Decision × SyncResult :=
  let md_by_title := byTitle markdown_decisions
  let conf_by_title := byTitle confluence_decisions
  let r := processMd today conf_by_title markdown_decisions
  let conf_only := confluence_decisions.filter (fun c => (md_by_title c.title).isNone)
  (r.1 ++ conf_only, { added := r.2.1, updated := r.2.2.1, unchanged := r.2.2.2 })

/-- Reconciliation core of `ConfluenceDecisionSync.sync_page_with_markdown`
(lines 279-329): parse the markdown, extract the remote decisions (empty on
a failed fetch) and reconcile.  The source accepts `preserve_confluence_only`
but never reads it; the page rendering and the remote write that follow
consume only the pair returned here. -/
def sync_page_with_markdown (today : String) (markdown_content : String)
    (fetched : Except String String) (preserve_confluence_only : Bool) :
    List Decision × SyncResult :=
  let markdown_decisions := parse_markdown_decisions today markdown_content
  let confluence_decisions := extract_existing_decisions today fetched
  sync_decisions today markdown_decisions confluence_decisions

/-! ### Status aggregation table (`status_counter.py`) -/

/-- Translation of `build_status_macro` (`status_counter.py` lines 134-143). -/
def build_status_macro (color title : String) : String :=
  "<ac:structured-macro ac:name=\"status\" ac:schema-version=\"1\">"
    ++ "<ac:parameter ac:name=\"colour\">" ++ color ++ "</ac:parameter>"
    ++ "<ac:parameter ac:name=\"title\">" ++ title ++ "</ac:parameter>"
    ++ "</ac:structured-macro>"

/-- One step of the colour aggregation loop (lines 173-175):
`aggregated_color_counts[color] = aggregated_color_counts.get(color, 0) + count`,
on a dict modelled as an association list in insertion order. -/
def addColorCount (m : List (String × Nat)) (color : String) (count : Nat) :
    List (String × Nat) :=
  if m.any (fun p => p.1 = color) then
    m.map (fun p => if p.1 = color then (p.1, p.2 + count) else p)
  else m ++ [(color, count)]

/-- The `aggregated_color_counts` dict of `generate_table_html`: counts
summed by colour, disregarding the title. -/
def aggregateByColor (status_counts : List ((String × String) × Nat)) :
    List (String × Nat) :=
  status_counts.foldl (fun m pc => addColorCount m pc.1.1 pc.2) []

/-- Translation of `generate_table_html` (`status_counter.py` lines
145-184).  A `Counter` is modelled as an association list of
`((color, title), count)` pairs in iteration order; the Python `Counter`
guarantees distinct keys, but none of the properties proved below need
that. -/
def generate_table_html (status_counts : List ((String × String) × Nat)) : String :=
  let header := "<table><thead><tr><th>Status</th><th>Occurrences</th></tr></thead><tbody>"
  let rows1 := status_counts.foldl (fun acc pc =>
    acc ++ "<tr><td>" ++ build_status_macro pc.1.1 pc.1.2 ++ "</td><td>"
      ++ toString pc.2 ++ "</td></tr>") header
  let rows1 := rows1 ++ "<tr><td colspan=\"2\"><strong>Total by Color</strong></td></tr>"
  let rows2 := (aggregateByColor status_counts).foldl (fun acc pc =>
    acc ++ "<tr><td>" ++ build_status_macro pc.1 pc.1 ++ "</td><td>"
      ++ toString pc.2 ++ "</td></tr>") rows1
  rows2 ++ "</tbody></table>"

/-! ### Lemmas about the title-keyed dictionaries -/

theorem byTitle_nil (t : String) : byTitle [] t = none := rfl

theorem byTitle_concat (l : List Decision) (d : Decision) (t : String) :
    byTitle (l ++ [d]) t = if t = d.title then some d else byTitle l t := by
  simp [byTitle, List.foldl_append]

theorem byTitle_eq_some : ∀ {l : List Decision} {t : String} {d : Decision},
    byTitle l t = some d → d.title = t ∧ d ∈ l := by
  intro l
  induction l using List.reverseRecOn with
  | nil => intro t d h; simp [byTitle_nil] at h
  | append_singleton l e ih =>
    intro t d h
    rw [byTitle_concat] at h
    by_cases ht : t = e.title
    · rw [if_pos ht] at h
      simp at h
      subst h
      exact ⟨ht.symm, by simp⟩
    · rw [if_neg ht] at h
      obtain ⟨h1, h2⟩ := ih h
      exact ⟨h1, by simp [h2]⟩

theorem byTitle_none_iff : ∀ {l : List Decision} {t : String},
    byTitle l t = none ↔ ∀ d ∈ l, d.title ≠ t := by
  intro l
  induction l using List.reverseRecOn with
  | nil => intro t; simp [byTitle_nil]
  | append_singleton l e ih =>
    intro t
    rw [byTitle_concat]
    by_cases ht : t = e.title
    · rw [if_pos ht]
      constructor
      · intro h; simp at h
      · intro h
        exact absurd ht.symm (h e (by simp))
    · rw [if_neg ht]
      constructor
      · intro h d hd
        rcases List.mem_append.mp hd with h1 | h1
        · exact ih.mp h d h1
        · rw [List.mem_singleton.mp h1]
          exact fun he => ht he.symm
      · intro h
        exact ih.mpr (fun d hd => h d (by simp [hd]))

theorem byTitle_skip_right : ∀ {l2 : List Decision} {l1 : List Decision} {t : String},
    (∀ e ∈ l2, e.title ≠ t) → byTitle (l1 ++ l2) t = byTitle l1 t := by
  intro l2
  induction l2 using List.reverseRecOn with
  | nil => intro l1 t _; simp
  | append_singleton l2 e ih =>
    intro l1 t h
    rw [show l1 ++ (l2 ++ [e]) = (l1 ++ l2) ++ [e] by simp, byTitle_concat]
    have he : e.title ≠ t := h e (by simp)
    rw [if_neg (fun hh => he hh.symm)]
    exact ih (fun x hx => h x (by simp [hx]))

theorem byTitle_last_wins (l1 l2 : List Decision) (d : Decision)
    (h : ∀ e ∈ l2, e.title ≠ d.title) :
    byTitle (l1 ++ d :: l2) d.title = some d := by
  rw [show l1 ++ d :: l2 = (l1 ++ [d]) ++ l2 by simp]
  rw [byTitle_skip_right h, byTitle_concat]
  simp

/-! ### Lemmas about the reconciliation loop -/

theorem processMd_buckets_sub (today : String) (dict : String → Option Decision) :
    ∀ (l : List Decision) (t : String),
      ((t ∈ (processMd today dict l).2.1 → ∃ d ∈ l, d.title = t) ∧
       (t ∈ (processMd today dict l).2.2.1 → ∃ d ∈ l, d.title = t) ∧
       (t ∈ (processMd today dict l).2.2.2 → ∃ d ∈ l, d.title = t)) := by
  intro l
  induction l with
  | nil => intro t; simp [processMd]
  | cons md rest ih =>
    intro t
    have iht := ih t
    simp only [processMd]
    match hd : dict md.title with
    | some conf =>
      by_cases hh : md.hash_id ≠ conf.hash_id
      · simp only [hd, if_pos hh, List.mem_cons]
        refine ⟨fun h => ?_, fun h => ?_, fun h => ?_⟩
        · obtain ⟨d, hd1, hd2⟩ := iht.1 h
          exact ⟨d, Or.inr hd1, hd2⟩
        · rcases h with h | h
          · exact ⟨md, Or.inl rfl, h.symm⟩
          · obtain ⟨d, hd1, hd2⟩ := iht.2.1 h
            exact ⟨d, Or.inr hd1, hd2⟩
        · obtain ⟨d, hd1, hd2⟩ := iht.2.2 h
          exact ⟨d, Or.inr hd1, hd2⟩
      · simp only [hd, if_neg hh, List.mem_cons]
        refine ⟨fun h => ?_, fun h => ?_, fun h => ?_⟩
        · obtain ⟨d, hd1, hd2⟩ := iht.1 h
          exact ⟨d, Or.inr hd1, hd2⟩
        · obtain ⟨d, hd1, hd2⟩ := iht.2.1 h
          exact ⟨d, Or.inr hd1, hd2⟩
        · rcases h with h | h
          · exact ⟨md, Or.inl rfl, h.symm⟩
          · obtain ⟨d, hd1, hd2⟩ := iht.2.2 h
            exact ⟨d, Or.inr hd1, hd2⟩
    | none =>
      simp only [hd, List.mem_cons]
      refine ⟨fun h => ?_, fun h => ?_, fun h => ?_⟩
      · rcases h with h | h
        · exact ⟨md, Or.inl rfl, h.symm⟩
        · obtain ⟨d, hd1, hd2⟩ := iht.1 h
          exact ⟨d, Or.inr hd1, hd2⟩
      · obtain ⟨d, hd1, hd2⟩ := iht.2.1 h
        exact ⟨d, Or.inr hd1, hd2⟩
      · obtain ⟨d, hd1, hd2⟩ := iht.2.2 h
        exact ⟨d, Or.inr hd1, hd2⟩

theorem processMd_added_none (today : String) (dict : String → Option Decision) :
    ∀ (l : List Decision) (t : String),
      t ∈ (processMd today dict l).2.1 → dict t = none := by
  intro l
  induction l with
  | nil => intro t h; simp [processMd] at h
  | cons md rest ih =>
    intro t h
    simp only [processMd] at h
    match hd : dict md.title with
    | some conf =>
      rw [hd] at h
      by_cases hh : md.hash_id ≠ conf.hash_id
      · simp [hh] at h
        exact ih t h
      · simp [hh] at h
        exact ih t h
    | none =>
      rw [hd] at h
      simp at h
      cases h with
      | inl h => rw [h]; exact hd
      | inr h => exact ih t h

theorem processMd_unchanged (today : String) (dict : String → Option Decision) :
    ∀ (l : List Decision) (md conf : Decision),
      (l.map Decision.title).Nodup → md ∈ l → dict md.title = some conf →
      md.hash_id = conf.hash_id →
      conf ∈ (processMd today dict l).1 ∧
      md.title ∈ (processMd today dict l).2.2.2 ∧
      md.title ∉ (processMd today dict l).2.2.1 := by
  intro l
  induction l with
  | nil => intro md conf _ hmem; simp at hmem
  | cons md0 rest ih =>
    intro md conf hnd hmem hdict hhash
    have hnd0 : md0.title ∉ rest.map Decision.title := by
      simp at hnd
      intro hc
      obtain ⟨d, hd1, hd2⟩ := List.mem_map.mp hc
      exact hnd.1 d hd1 hd2
    have hndr : (rest.map Decision.title).Nodup := by
      simp at hnd
      exact hnd.2
    rcases List.mem_cons.mp hmem with rfl | hmem'
    · simp only [processMd, hdict]
      rw [if_neg (fun hc : md.hash_id ≠ conf.hash_id => hc hhash)]
      refine ⟨by simp, by simp, fun hc => ?_⟩
      have := (processMd_buckets_sub today dict rest md.title).2.1 hc
      obtain ⟨d, hd1, hd2⟩ := this
      exact hnd0 (List.mem_map.mpr ⟨d, hd1, hd2⟩)
    · have hne : md.title ≠ md0.title := by
        intro hc
        exact hnd0 (hc ▸ List.mem_map.mpr ⟨md, hmem', rfl⟩)
      obtain ⟨ih1, ih2, ih3⟩ := ih md conf hndr hmem' hdict hhash
      simp only [processMd]
      match hd : dict md0.title with
      | some conf0 =>
        by_cases hh : md0.hash_id ≠ conf0.hash_id
        · simp only [if_pos hh]
          exact ⟨List.mem_cons_of_mem _ ih1, ih2,
            fun hc => (List.mem_cons.mp hc).elim (fun h => hne h) ih3⟩
        · simp only [if_neg hh]
          exact ⟨List.mem_cons_of_mem _ ih1, List.mem_cons_of_mem _ ih2, ih3⟩
      | none =>
        exact ⟨List.mem_cons_of_mem _ ih1, ih2, ih3⟩

theorem processMd_updated (today : String) (dict : String → Option Decision) :
    ∀ (l : List Decision) (md conf : Decision),
      (l.map Decision.title).Nodup → md ∈ l → dict md.title = some conf →
      md.hash_id ≠ conf.hash_id →
      { md with date_updated := some today } ∈ (processMd today dict l).1 ∧
      md.title ∈ (processMd today dict l).2.2.1 ∧
      md.title ∉ (processMd today dict l).2.2.2 := by
  intro l
  induction l with
  | nil => intro md conf _ hmem; simp at hmem
  | cons md0 rest ih =>
    intro md conf hnd hmem hdict hhash
    have hnd0 : md0.title ∉ rest.map Decision.title := by
      simp at hnd
      intro hc
      obtain ⟨d, hd1, hd2⟩ := List.mem_map.mp hc
      exact hnd.1 d hd1 hd2
    have hndr : (rest.map Decision.title).Nodup := by
      simp at hnd
      exact hnd.2
    rcases List.mem_cons.mp hmem with rfl | hmem'
    · simp only [processMd, hdict]
      rw [if_pos hhash]
      refine ⟨by simp, by simp, fun hc => ?_⟩
      have := (processMd_buckets_sub today dict rest md.title).2.2 hc
      obtain ⟨d, hd1, hd2⟩ := this
      exact hnd0 (List.mem_map.mpr ⟨d, hd1, hd2⟩)
    · have hne : md.title ≠ md0.title := by
        intro hc
        exact hnd0 (hc ▸ List.mem_map.mpr ⟨md, hmem', rfl⟩)
      obtain ⟨ih1, ih2, ih3⟩ := ih md conf hndr hmem' hdict hhash
      simp only [processMd]
      match hd : dict md0.title with
      | some conf0 =>
        by_cases hh : md0.hash_id ≠ conf0.hash_id
        · simp only [if_pos hh]
          exact ⟨List.mem_cons_of_mem _ ih1, List.mem_cons_of_mem _ ih2, ih3⟩
        · simp only [if_neg hh]
          exact ⟨List.mem_cons_of_mem _ ih1, ih2,
            fun hc => (List.mem_cons.mp hc).elim (fun h => hne h) ih3⟩
      | none =>
        exact ⟨List.mem_cons_of_mem _ ih1, ih2, ih3⟩

theorem processMd_final_titles (today : String) (dict : String → Option Decision)
    (hdict : ∀ t c, dict t = some c → c.title = t) :
    ∀ l : List Decision,
      (processMd today dict l).1.map Decision.title = l.map Decision.title := by
  intro l
  induction l with
  | nil => simp [processMd]
  | cons md rest ih =>
    simp only [processMd]
    match hd : dict md.title with
    | some conf =>
      by_cases hh : md.hash_id ≠ conf.hash_id
      · simp only [if_pos hh, List.map_cons, ih]
      · simp only [if_neg hh, List.map_cons, ih, hdict md.title conf hd]
    | none =>
      simp only [List.map_cons, ih]

/-- Helper shared by the remote-only claims: a remote decision whose title
never occurs among the markdown titles is appended to the merged output and
lands in no classification bucket. -/
theorem sync_remote_only (today : String) (mds cds : List Decision) (cd : Decision)
    (hmem : cd ∈ cds) (hno : ∀ md ∈ mds, md.title ≠ cd.title) :
    cd ∈ (sync_decisions today mds cds).1 ∧
    cd.title ∉ (sync_decisions today mds cds).2.added ∧
    cd.title ∉ (sync_decisions today mds cds).2.updated ∧
    cd.title ∉ (sync_decisions today mds cds).2.unchanged := by
  have hnone : byTitle mds cd.title = none := byTitle_none_iff.mpr hno
  have hb := processMd_buckets_sub today (byTitle cds) mds cd.title
  refine ⟨?_, fun hc => ?_, fun hc => ?_, fun hc => ?_⟩
  · simp only [sync_decisions]
    apply List.mem_append_right
    exact List.mem_filter.mpr ⟨hmem, by simp [hnone]⟩
  · simp only [sync_decisions] at hc
    obtain ⟨d, hd1, hd2⟩ := hb.1 hc
    exact hno d hd1 hd2
  · simp only [sync_decisions] at hc
    obtain ⟨d, hd1, hd2⟩ := hb.2.1 hc
    exact hno d hd1 hd2
  · simp only [sync_decisions] at hc
    obtain ⟨d, hd1, hd2⟩ := hb.2.2 hc
    exact hno d hd1 hd2

/-! ### Claim theorems -/

/-- C1 (amended): for every markdown decision whose title is in the remote
index with an equal fingerprint, the indexed remote Decision itself is
appended to the merged output and the title is recorded in the `unchanged`
bucket; the title never appears in `added`, and — provided no two markdown
decisions share a title — it appears in no bucket other than `unchanged`.
(The unamended "unchanged bucket only" fails when two markdown decisions
share the title, see the counterexample.) -/
theorem sync_unchanged_retains_remote (today : String)
    (mds cds : List Decision) (md conf : Decision)
    (hnd : (mds.map Decision.title).Nodup)
    (hmem : md ∈ mds)
    (hconf : byTitle cds md.title = some conf)
    (hhash : md.hash_id = conf.hash_id) :
    conf ∈ (sync_decisions today mds cds).1 ∧
    md.title ∈ (sync_decisions today mds cds).2.unchanged ∧
    md.title ∉ (sync_decisions today mds cds).2.added ∧
    md.title ∉ (sync_decisions today mds cds).2.updated := by
  obtain ⟨h1, h2, h3⟩ := processMd_unchanged today (byTitle cds) mds md conf hnd hmem hconf hhash
  refine ⟨?_, ?_, fun hc => ?_, fun hc => ?_⟩
  · simp only [sync_decisions]
    exact List.mem_append_left _ h1
  · simp only [sync_decisions]
    exact h2
  · simp only [sync_decisions] at hc
    have := processMd_added_none today (byTitle cds) mds md.title hc
    rw [this] at hconf
    simp at hconf
  · simp only [sync_decisions] at hc
    exact h3 hc

/-- C1 counterexample: markdown decisions `[T/aa, T/bb]` against the remote
decision `T/aa`.  The first markdown decision satisfies the claim's
hypothesis (title present remotely, fingerprints equal), yet the title `T`
is recorded in both the `unchanged` and the `updated` bucket, refuting
"records that title in the 'unchanged' classification bucket only". -/
theorem sync_unchanged_only_counterexample :
    ({ title := "T", owner := "A", description := "x", original_text := "", hash_id := "aa" } : Decision) ∈
      [({ title := "T", owner := "A", description := "x", original_text := "", hash_id := "aa" } : Decision),
       { title := "T", owner := "B", description := "y", original_text := "", hash_id := "bb" }] ∧
    byTitle [({ title := "T", owner := "A", description := "x", original_text := "", hash_id := "aa" } : Decision)] "T"
      = some { title := "T", owner := "A", description := "x", original_text := "", hash_id := "aa" } ∧
    "T" ∈ (sync_decisions "2026-10-12"
      [({ title := "T", owner := "A", description := "x", original_text := "", hash_id := "aa" } : Decision),
       { title := "T", owner := "B", description := "y", original_text := "", hash_id := "bb" }]
      [({ title := "T", owner := "A", description := "x", original_text := "", hash_id := "aa" } : Decision)]).2.unchanged ∧
    "T" ∈ (sync_decisions "2026-10-12"
      [({ title := "T", owner := "A", description := "x", original_text := "", hash_id := "aa" } : Decision),
       { title := "T", owner := "B", description := "y", original_text := "", hash_id := "bb" }]
      [({ title := "T", owner := "A", description := "x", original_text := "", hash_id := "aa" } : Decision)]).2.updated := by
  decide

/-- C1 witness: the amended claim at a concrete input. -/
theorem sync_unchanged_retains_remote_witness :
    ({ title := "B", owner := "O", description := "d", original_text := "", hash_id := "h2" } : Decision) ∈
      (sync_decisions "2026-10-12"
        [({ title := "A", owner := "O", description := "d", original_text := "", hash_id := "h1" } : Decision),
         { title := "B", owner := "P", description := "e", original_text := "", hash_id := "h2" }]
        [({ title := "B", owner := "O", description := "d", original_text := "", hash_id := "h2" } : Decision)]).1 ∧
    "B" ∈ (sync_decisions "2026-10-12"
        [({ title := "A", owner := "O", description := "d", original_text := "", hash_id := "h1" } : Decision),
         { title := "B", owner := "P", description := "e", original_text := "", hash_id := "h2" }]
        [({ title := "B", owner := "O", description := "d", original_text := "", hash_id := "h2" } : Decision)]).2.unchanged ∧
    "B" ∉ (sync_decisions "2026-10-12"
        [({ title := "A", owner := "O", description := "d", original_text := "", hash_id := "h1" } : Decision),
         { title := "B", owner := "P", description := "e", original_text := "", hash_id := "h2" }]
        [({ title := "B", owner := "O", description := "d", original_text := "", hash_id := "h2" } : Decision)]).2.added ∧
    "B" ∉ (sync_decisions "2026-10-12"
        [({ title := "A", owner := "O", description := "d", original_text := "", hash_id := "h1" } : Decision),
         { title := "B", owner := "P", description := "e", original_text := "", hash_id := "h2" }]
        [({ title := "B", owner := "O", description := "d", original_text := "", hash_id := "h2" } : Decision)]).2.updated :=
  sync_unchanged_retains_remote "2026-10-12"
    [({ title := "A", owner := "O", description := "d", original_text := "", hash_id := "h1" } : Decision),
     { title := "B", owner := "P", description := "e", original_text := "", hash_id := "h2" }]
    [({ title := "B", owner := "O", description := "d", original_text := "", hash_id := "h2" } : Decision)]
    { title := "B", owner := "P", description := "e", original_text := "", hash_id := "h2" }
    { title := "B", owner := "O", description := "d", original_text := "", hash_id := "h2" }
    (by decide) (by decide) (by decide) (by decide)

/-- C2 (amended): for every markdown decision whose title is in the remote
index with a differing fingerprint, the markdown version with its
`date_updated` field set to the run date is appended to the merged output
and the title is recorded in the `updated` bucket; the title never appears
in `added`, and — provided no two markdown decisions share a title — it
appears in no bucket other than `updated`.  (The unamended "updated bucket
only" fails when two markdown decisions share the title, see the
counterexample.) -/
theorem sync_updated_markdown_wins (today : String)
    (mds cds : List Decision) (md conf : Decision)
    (hnd : (mds.map Decision.title).Nodup)
    (hmem : md ∈ mds)
    (hconf : byTitle cds md.title = some conf)
    (hhash : md.hash_id ≠ conf.hash_id) :
    { md with date_updated := some today } ∈ (sync_decisions today mds cds).1 ∧
    md.title ∈ (sync_decisions today mds cds).2.updated ∧
    md.title ∉ (sync_decisions today mds cds).2.added ∧
    md.title ∉ (sync_decisions today mds cds).2.unchanged := by
  obtain ⟨h1, h2, h3⟩ := processMd_updated today (byTitle cds) mds md conf hnd hmem hconf hhash
  refine ⟨?_, ?_, fun hc => ?_, fun hc => ?_⟩
  · simp only [sync_decisions]
    exact List.mem_append_left _ h1
  · simp only [sync_decisions]
    exact h2
  · simp only [sync_decisions] at hc
    have := processMd_added_none today (byTitle cds) mds md.title hc
    rw [this] at hconf
    simp at hconf
  · simp only [sync_decisions] at hc
    exact h3 hc

/-- C2 counterexample: markdown decisions `[T/aa, T/bb]` against the remote
decision `T/bb`.  The first markdown decision satisfies the claim's
hypothesis (title present remotely, fingerprints differ), yet the title `T`
is recorded in both the `updated` and the `unchanged` bucket, refuting
"records that title in the 'updated' classification bucket only". -/
theorem sync_updated_only_counterexample :
    ({ title := "T", owner := "A", description := "x", original_text := "", hash_id := "aa" } : Decision) ∈
      [({ title := "T", owner := "A", description := "x", original_text := "", hash_id := "aa" } : Decision),
       { title := "T", owner := "B", description := "y", original_text := "", hash_id := "bb" }] ∧
    byTitle [({ title := "T", owner := "B", description := "y", original_text := "", hash_id := "bb" } : Decision)] "T"
      = some { title := "T", owner := "B", description := "y", original_text := "", hash_id := "bb" } ∧
    "aa" ≠ "bb" ∧
    "T" ∈ (sync_decisions "2026-10-12"
      [({ title := "T", owner := "A", description := "x", original_text := "", hash_id := "aa" } : Decision),
       { title := "T", owner := "B", description := "y", original_text := "", hash_id := "bb" }]
      [({ title := "T", owner := "B", description := "y", original_text := "", hash_id := "bb" } : Decision)]).2.updated ∧
    "T" ∈ (sync_decisions "2026-10-12"
      [({ title := "T", owner := "A", description := "x", original_text := "", hash_id := "aa" } : Decision),
       { title := "T", owner := "B", description := "y", original_text := "", hash_id := "bb" }]
      [({ title := "T", owner := "B", description := "y", original_text := "", hash_id := "bb" } : Decision)]).2.unchanged := by
  decide

/-- C2 witness: the amended claim at a concrete input. -/
theorem sync_updated_markdown_wins_witness :
    ({ title := "B", owner := "P", description := "e", original_text := "", hash_id := "h3",
       date_updated := some "2026-10-12" } : Decision) ∈
      (sync_decisions "2026-10-12"
        [({ title := "B", owner := "P", description := "e", original_text := "", hash_id := "h3" } : Decision)]
        [({ title := "B", owner := "O", description := "d", original_text := "", hash_id := "h2" } : Decision)]).1 ∧
    "B" ∈ (sync_decisions "2026-10-12"
        [({ title := "B", owner := "P", description := "e", original_text := "", hash_id := "h3" } : Decision)]
        [({ title := "B", owner := "O", description := "d", original_text := "", hash_id := "h2" } : Decision)]).2.updated ∧
    "B" ∉ (sync_decisions "2026-10-12"
        [({ title := "B", owner := "P", description := "e", original_text := "", hash_id := "h3" } : Decision)]
        [({ title := "B", owner := "O", description := "d", original_text := "", hash_id := "h2" } : Decision)]).2.added ∧
    "B" ∉ (sync_decisions "2026-10-12"
        [({ title := "B", owner := "P", description := "e", original_text := "", hash_id := "h3" } : Decision)]
        [({ title := "B", owner := "O", description := "d", original_text := "", hash_id := "h2" } : Decision)]).2.unchanged :=
  sync_updated_markdown_wins "2026-10-12"
    [({ title := "B", owner := "P", description := "e", original_text := "", hash_id := "h3" } : Decision)]
    [({ title := "B", owner := "O", description := "d", original_text := "", hash_id := "h2" } : Decision)]
    { title := "B", owner := "P", description := "e", original_text := "", hash_id := "h3" }
    { title := "B", owner := "O", description := "d", original_text := "", hash_id := "h2" }
    (by decide) (by decide) (by decide) (by decide)

/-- C3: every remote decision whose title does not occur among the markdown
titles is appended unchanged to the merged output, and its title appears in
none of the three classification buckets of the returned SyncResult. -/
theorem sync_remote_only_preserved (today : String) (mds cds : List Decision)
    (cd : Decision) (hmem : cd ∈ cds)
    (hno : ∀ md ∈ mds, md.title ≠ cd.title) :
    cd ∈ (sync_decisions today mds cds).1 ∧
    cd.title ∉ (sync_decisions today mds cds).2.added ∧
    cd.title ∉ (sync_decisions today mds cds).2.updated ∧
    cd.title ∉ (sync_decisions today mds cds).2.unchanged :=
  sync_remote_only today mds cds cd hmem hno

/-- C3 witness: the spec's scenario — markdown adds "Retired Feature",
remote holds the unrelated "Legacy Note", which is preserved unclassified. -/
theorem sync_remote_only_preserved_witness :
    ({ title := "Legacy Note", owner := "O", description := "old", original_text := "",
       hash_id := "ln" } : Decision) ∈
      (sync_decisions "2026-10-12"
        [({ title := "Retired Feature", owner := "A", description := "r", original_text := "",
            hash_id := "rf" } : Decision)]
        [({ title := "Legacy Note", owner := "O", description := "old", original_text := "",
            hash_id := "ln" } : Decision)]).1 ∧
    "Legacy Note" ∉ (sync_decisions "2026-10-12"
        [({ title := "Retired Feature", owner := "A", description := "r", original_text := "",
            hash_id := "rf" } : Decision)]
        [({ title := "Legacy Note", owner := "O", description := "old", original_text := "",
            hash_id := "ln" } : Decision)]).2.added ∧
    "Legacy Note" ∉ (sync_decisions "2026-10-12"
        [({ title := "Retired Feature", owner := "A", description := "r", original_text := "",
            hash_id := "rf" } : Decision)]
        [({ title := "Legacy Note", owner := "O", description := "old", original_text := "",
            hash_id := "ln" } : Decision)]).2.updated ∧
    "Legacy Note" ∉ (sync_decisions "2026-10-12"
        [({ title := "Retired Feature", owner := "A", description := "r", original_text := "",
            hash_id := "rf" } : Decision)]
        [({ title := "Legacy Note", owner := "O", description := "old", original_text := "",
            hash_id := "ln" } : Decision)]).2.unchanged :=
  sync_remote_only_preserved "2026-10-12"
    [({ title := "Retired Feature", owner := "A", description := "r", original_text := "",
        hash_id := "rf" } : Decision)]
    [({ title := "Legacy Note", owner := "O", description := "old", original_text := "",
        hash_id := "ln" } : Decision)]
    { title := "Legacy Note", owner := "O", description := "old", original_text := "", hash_id := "ln" }
    (by decide) (by decide)

/-- C7 (amended): the title-keyed lookup dictionaries are last-write-wins
(a later occurrence of a duplicate title overwrites an earlier one), and
the merged output has pairwise-distinct titles PROVIDED each input sequence
has pairwise-distinct titles.  (Unconditional title uniqueness of the
merged output fails for duplicate markdown titles, see the
counterexample.) -/
theorem sync_title_uniqueness (today : String) (mds cds l1 l2 : List Decision)
    (d : Decision)
    (hdup : ∀ e ∈ l2, e.title ≠ d.title)
    (hmd : (mds.map Decision.title).Nodup)
    (hcd : (cds.map Decision.title).Nodup) :
    byTitle (l1 ++ d :: l2) d.title = some d ∧
    ((sync_decisions today mds cds).1.map Decision.title).Nodup := by
  refine ⟨byTitle_last_wins l1 l2 d hdup, ?_⟩
  simp only [sync_decisions, List.map_append]
  have hfin : (processMd today (byTitle cds) mds).1.map Decision.title
      = mds.map Decision.title :=
    processMd_final_titles today (byTitle cds)
      (fun t c h => (byTitle_eq_some h).1) mds
  rw [hfin]
  have hsub : ((cds.filter (fun c => (byTitle mds c.title).isNone)).map Decision.title).Sublist
      (cds.map Decision.title) :=
    (List.filter_sublist cds).map Decision.title
  refine List.Nodup.append hmd (hcd.sublist hsub) ?_
  intro t hmd' hcf
  obtain ⟨cd, hcd1, hcd2⟩ := List.mem_map.mp hcf
  have hfilter := List.mem_filter.mp hcd1
  have : byTitle mds cd.title = none := by
    have := hfilter.2
    simpa [Option.isNone_iff_eq_none] using this
  rw [hcd2] at this
  obtain ⟨d', hd1, hd2⟩ := List.mem_map.mp hmd'
  exact (byTitle_none_iff.mp this d' hd1) hd2

/-- C7 counterexample: two markdown decisions with the same title `T` and no
remote decisions.  The merged output contains the title `T` twice, refuting
"each title occurs at most once in the merged output sequence". -/
theorem sync_title_uniqueness_counterexample :
    ((sync_decisions "2026-10-12"
      [({ title := "T", owner := "A", description := "x", original_text := "", hash_id := "aa" } : Decision),
       { title := "T", owner := "B", description := "y", original_text := "", hash_id := "bb" }]
      []).1.map Decision.title).count "T" = 2 := by
  decide

/-- C7 witness: the amended claim at a concrete input. -/
theorem sync_title_uniqueness_witness :
    byTitle
        [({ title := "T", owner := "A", description := "x", original_text := "", hash_id := "aa" } : Decision),
         { title := "T", owner := "B", description := "y", original_text := "", hash_id := "bb" },
         { title := "U", owner := "C", description := "z", original_text := "", hash_id := "cc" }] "T"
      = some { title := "T", owner := "B", description := "y", original_text := "", hash_id := "bb" } ∧
    ((sync_decisions "2026-10-12"
      [({ title := "A", owner := "O", description := "d", original_text := "", hash_id := "h1" } : Decision)]
      [({ title := "A", owner := "O", description := "d", original_text := "", hash_id := "h1" } : Decision),
       { title := "R", owner := "Q", description := "r", original_text := "", hash_id := "h9" }]).1.map
        Decision.title).Nodup :=
  sync_title_uniqueness "2026-10-12"
    [({ title := "A", owner := "O", description := "d", original_text := "", hash_id := "h1" } : Decision)]
    [({ title := "A", owner := "O", description := "d", original_text := "", hash_id := "h1" } : Decision),
     { title := "R", owner := "Q", description := "r", original_text := "", hash_id := "h9" }]
    [({ title := "T", owner := "A", description := "x", original_text := "", hash_id := "aa" } : Decision)]
    [({ title := "U", owner := "C", description := "z", original_text := "", hash_id := "cc" } : Decision)]
    { title := "T", owner := "B", description := "y", original_text := "", hash_id := "bb" }
    (by decide) (by decide) (by decide)

/-- C8: when the remote page fetch fails, `extract_existing_decisions`
returns the empty decision list instead of propagating the failure, and the
orchestrator proceeds as if the remote set had no existing decisions
(reconciling the parsed markdown against the empty list). -/
theorem extract_error_returns_empty (today errMsg markdown_content : String)
    (preserve_confluence_only : Bool) :
    extract_existing_decisions today (Except.error errMsg) = [] ∧
    sync_page_with_markdown today markdown_content (Except.error errMsg)
        preserve_confluence_only
      = sync_decisions today (parse_markdown_decisions today markdown_content) [] :=
  ⟨rfl, rfl⟩

/-- C9: the `preserve_confluence_only` flag never changes the merged output
or the classification report — the orchestrator accepts it but never reads
it — and remote-only decisions are appended under both flag values. -/
theorem preserve_flag_noninterference (today markdown_content : String)
    (fetched : Except String String) :
    sync_page_with_markdown today markdown_content fetched true
      = sync_page_with_markdown today markdown_content fetched false ∧
    ∀ cd ∈ extract_existing_decisions today fetched,
      (∀ md ∈ parse_markdown_decisions today markdown_content, md.title ≠ cd.title) →
      cd ∈ (sync_page_with_markdown today markdown_content fetched true).1 ∧
      cd ∈ (sync_page_with_markdown today markdown_content fetched false).1 := by
  refine ⟨rfl, fun cd hmem hno => ?_⟩
  have h := (sync_remote_only today (parse_markdown_decisions today markdown_content)
    (extract_existing_decisions today fetched) cd hmem hno).1
  exact ⟨h, h⟩

/-! ### Lemmas about the colour aggregation -/

theorem keys_addColorCount (m : List (String × Nat)) (c : String) (k : Nat) :
    (addColorCount m c k).map Prod.fst
      = if m.any (fun p => p.1 = c) then m.map Prod.fst else m.map Prod.fst ++ [c] := by
  by_cases h : m.any (fun p => p.1 = c)
  · rw [addColorCount, if_pos h, if_pos h, List.map_map]
    apply List.map_congr_left
    intro p _
    by_cases hp : p.1 = c <;> simp [hp]
  · rw [addColorCount, if_neg h, if_neg h]
    simp

theorem mem_keys_addColorCount_self (m : List (String × Nat)) (c : String) (k : Nat) :
    c ∈ (addColorCount m c k).map Prod.fst := by
  rw [keys_addColorCount]
  by_cases h : m.any (fun p => p.1 = c)
  · rw [if_pos h]
    obtain ⟨p, hp1, hp2⟩ := List.any_eq_true.mp h
    simp at hp2
    exact List.mem_map.mpr ⟨p, hp1, hp2⟩
  · rw [if_neg h]
    simp

theorem mem_keys_addColorCount_mono (m : List (String × Nat)) (c c' : String) (k : Nat)
    (h : c' ∈ m.map Prod.fst) : c' ∈ (addColorCount m c k).map Prod.fst := by
  rw [keys_addColorCount]
  by_cases hc : m.any (fun p => p.1 = c)
  · rw [if_pos hc]; exact h
  · rw [if_neg hc]; simp [h]

theorem nodup_keys_addColorCount (m : List (String × Nat)) (c : String) (k : Nat)
    (h : (m.map Prod.fst).Nodup) : ((addColorCount m c k).map Prod.fst).Nodup := by
  rw [keys_addColorCount]
  by_cases hc : m.any (fun p => p.1 = c)
  · rw [if_pos hc]; exact h
  · rw [if_neg hc]
    apply List.Nodup.append h (List.nodup_singleton c)
    intro x hx hx'
    rw [List.mem_singleton.mp hx'] at hx
    obtain ⟨p, hp1, hp2⟩ := List.mem_map.mp hx
    simp only [Bool.not_eq_true] at hc
    have hnp := List.any_eq_false.mp hc p hp1
    simp at hnp
    exact hnp hp2

theorem sum_addColorCount (m : List (String × Nat)) (c : String) (k : Nat)
    (h : (m.map Prod.fst).Nodup) :
    ((addColorCount m c k).map (fun p => p.2)).sum = (m.map (fun p => p.2)).sum + k := by
  by_cases hc : m.any (fun p => p.1 = c)
  · rw [addColorCount, if_pos hc]
    induction m with
    | nil => simp at hc
    | cons p0 rest ih =>
      simp only [List.map_cons, List.nodup_cons] at h
      by_cases hp0 : p0.1 = c
      · have hrest : ∀ p ∈ rest, p.1 ≠ c := by
          intro p hp hpc
          exact h.1 (List.mem_map.mpr ⟨p, hp, by rw [hpc, hp0]⟩)
        have hmapid : ∀ rs : List (String × Nat), (∀ p ∈ rs, p.1 ≠ c) →
            rs.map (fun p => if p.1 = c then (p.1, p.2 + k) else p) = rs := by
          intro rs
          induction rs with
          | nil => intro _; rfl
          | cons q qs ihq =>
            intro hq
            simp [hq q (by simp), ihq (fun p hp => hq p (by simp [hp]))]
        simp only [List.map_cons, if_pos hp0, hmapid rest hrest]
        simp
        omega
      · have hcrest : rest.any (fun p => p.1 = c) := by
          rcases List.any_eq_true.mp hc with ⟨p, hp1, hp2⟩
          rcases List.mem_cons.mp hp1 with rfl | hp1'
          · simp at hp2; exact absurd hp2 hp0
          · exact List.any_eq_true.mpr ⟨p, hp1', hp2⟩
        simp only [List.map_cons, if_neg hp0]
        have := ih h.2 hcrest
        simp at this ⊢
        omega
  · rw [addColorCount, if_neg hc]
    simp

theorem aggregate_fold (l : List ((String × String) × Nat)) :
    ∀ m : List (String × Nat), (m.map Prod.fst).Nodup →
      (((l.foldl (fun m pc => addColorCount m pc.1.1 pc.2) m).map Prod.fst).Nodup ∧
       ((l.foldl (fun m pc => addColorCount m pc.1.1 pc.2) m).map (fun p => p.2)).sum
         = (m.map (fun p => p.2)).sum + (l.map (fun pc => pc.2)).sum ∧
       ∀ c, (c ∈ m.map Prod.fst ∨ c ∈ l.map (fun pc => pc.1.1)) →
         c ∈ (l.foldl (fun m pc => addColorCount m pc.1.1 pc.2) m).map Prod.fst) := by
  induction l with
  | nil =>
    intro m hm
    refine ⟨hm, by simp, fun c h => ?_⟩
    rcases h with h | h
    · simpa using h
    · simp at h
  | cons pc rest ih =>
    intro m hm
    simp only [List.foldl_cons]
    obtain ⟨ih1, ih2, ih3⟩ := ih (addColorCount m pc.1.1 pc.2)
      (nodup_keys_addColorCount m pc.1.1 pc.2 hm)
    refine ⟨ih1, ?_, ?_⟩
    · rw [ih2, sum_addColorCount m pc.1.1 pc.2 hm]
      simp
      omega
    · intro c hc
      rcases hc with hc | hc
      · exact ih3 c (Or.inl (mem_keys_addColorCount_mono m pc.1.1 c pc.2 hc))
      · rw [List.map_cons] at hc
        rcases List.mem_cons.mp hc with hceq | hc'
        · rw [hceq]
          exact ih3 _ (Or.inl (mem_keys_addColorCount_self m pc.1.1 pc.2))
        · exact ih3 c (Or.inr hc')

/-- C10: in the table `generate_table_html` renders, the aggregate rows
(`aggregateByColor`, the "Total by Color" section) conserve the total
count — their counts sum to the sum of the per-(colour, title) row counts —
and every colour occurring in the input appears in exactly one aggregate
row. -/
theorem table_color_aggregation (status_counts : List ((String × String) × Nat)) :
    ((aggregateByColor status_counts).map (fun p => p.2)).sum
      = (status_counts.map (fun pc => pc.2)).sum ∧
    ∀ color, color ∈ status_counts.map (fun pc => pc.1.1) →
      ((aggregateByColor status_counts).map Prod.fst).count color = 1 := by
  obtain ⟨h1, h2, h3⟩ := aggregate_fold status_counts [] (by simp)
  refine ⟨by simpa using h2, fun color hc => ?_⟩
  exact List.count_eq_one_of_mem h1 (h3 color (Or.inr hc))

/-- C10 witness: the aggregation property at a concrete counter. -/
theorem table_color_aggregation_witness :
    ((aggregateByColor [(("Green", "Done"), 2), (("Green", "Pass"), 3), (("Red", "Fail"), 1)]).map
          (fun p => p.2)).sum
      = ([(("Green", "Done"), 2), (("Green", "Pass"), 3), (("Red", "Fail"), 1)].map
          (fun pc => pc.2)).sum ∧
    ((aggregateByColor [(("Green", "Done"), 2), (("Green", "Pass"), 3), (("Red", "Fail"), 1)]).map
        Prod.fst).count "Green" = 1 :=
  ⟨(table_color_aggregation [(("Green", "Done"), 2), (("Green", "Pass"), 3), (("Red", "Fail"), 1)]).1,
   (table_color_aggregation [(("Green", "Done"), 2), (("Green", "Pass"), 3), (("Red", "Fail"), 1)]).2
     "Green" (by decide)⟩



/-- C5 (amended): parsing `## Ship v2 [[Alice]]\n**Status**: Approved\nShip it.`
produces one Decision whose title is `Ship v2 [[Alice]]` (the `[[...]]`
owner markup is NOT stripped from the title), whose owner is `Alice`, whose
status is the explicit value `Approved` taken verbatim (the keyword mapping
to `DECIDED` applies only when no explicit `**Status**:` line exists), and
whose description is `**Status**: Approved\nShip it.` (the status line
remains in the description; only `[[...]]` markup is stripped from it). -/
theorem parse_scenario_actual :
    (parse_markdown_decisions "2026-10-12"
        "## Ship v2 [[Alice]]\n**Status**: Approved\nShip it.").map
        (fun d => (d.title, d.owner, d.status, d.description, d.date_created))
      = [("Ship v2 [[Alice]]", "Alice", "Approved", "**Status**: Approved\nShip it.",
          some "2026-10-12")] := by
  decide

/-- C5 counterexample: no decision parsed from the scenario input has the
claimed field values (title `Ship v2`, owner `Alice`, status `DECIDED`,
description `Ship it.`). -/
theorem parse_scenario_counterexample :
    ¬ ∃ d ∈ parse_markdown_decisions "2026-10-12"
        "## Ship v2 [[Alice]]\n**Status**: Approved\nShip it.",
      d.title = "Ship v2" ∧ d.owner = "Alice" ∧ d.status = "DECIDED" ∧
      d.description = "Ship it." := by
  decide

/-- C6: for the scenario description ```**bold** and *em* and `code` ```, the
rendered markup contains the `<strong>`, `<em>` and `<code>` conversions and
no literal asterisk or backtick remains anywhere in the output; and because
HTML escaping runs before the inline-formatting substitutions, a `<` inside
emphasis markers is escaped while the introduced `<em>` tags are not (final
conjunct). -/
theorem render_inline_formatting :
    hasSubstr "<strong>bold</strong>".data
        (create_decision_macro_xml
          { title := "Ship v2", owner := "Alice",
            description := "**bold** and *em* and `code`", original_text := "",
            hash_id := "", date_created := some "2024-01-01" }).data = true ∧
    hasSubstr "<em>em</em>".data
        (create_decision_macro_xml
          { title := "Ship v2", owner := "Alice",
            description := "**bold** and *em* and `code`", original_text := "",
            hash_id := "", date_created := some "2024-01-01" }).data = true ∧
    hasSubstr "<code>code</code>".data
        (create_decision_macro_xml
          { title := "Ship v2", owner := "Alice",
            description := "**bold** and *em* and `code`", original_text := "",
            hash_id := "", date_created := some "2024-01-01" }).data = true ∧
    '*' ∉ (create_decision_macro_xml
          { title := "Ship v2", owner := "Alice",
            description := "**bold** and *em* and `code`", original_text := "",
            hash_id := "", date_created := some "2024-01-01" }).data ∧
    '`' ∉ (create_decision_macro_xml
          { title := "Ship v2", owner := "Alice",
            description := "**bold** and *em* and `code`", original_text := "",
            hash_id := "", date_created := some "2024-01-01" }).data ∧
    hasSubstr "<em>&lt;</em>".data
        (create_decision_macro_xml
          { title := "T", owner := "A", description := "*<*", original_text := "",
            hash_id := "" }).data = true := by
  decide

/-! ### Round-trip analysis (claim C4)

`create_decision_macro_xml` renders a `<h2>` section, not a decision macro,
so `extract_existing_decisions` finds nothing in markup produced by it.
The proof shows the rendered markup never contains the character pair
`<a` — every `<` it emits opens one of the fixed tags `h2 p strong em code
br hr` — while the extractor's decision pattern must begin with the literal
`<ac:structured-macro ac:name="decision"`. -/

/-- Characters that are inert for this rendering pipeline: none of the five
HTML metacharacters, no inline-formatting markers, no newline. -/
def plainChar (c : Char) : Bool :=
  !(c == '&' || c == '<' || c == '>' || c == '"' || c == '\'' ||
    c == '*' || c == '`' || c == '\n')

/-- A string of inert characters. -/
def plainStr (s : String) : Bool := s.data.all plainChar

/-- An optional string of inert characters. -/
def plainOpt : Option String → Bool
  | none => true
  | some s => plainStr s

/-- No occurrence of the adjacent pair `<a` (the first two characters of the
extractor's decision-macro pattern). -/
def noLtA : List Char → Bool
  | [] => true
  | [_] => true
  | x :: y :: rest => !(x == '<' && y == 'a') && noLtA (y :: rest)

theorem noLtA_cons_cons (x y : Char) (l : List Char) :
    noLtA (x :: y :: l) = (!(x == '<' && y == 'a') && noLtA (y :: l)) := rfl

theorem noLtA_cons_of_ne {c : Char} (hc : c ≠ '<') {l : List Char}
    (hl : noLtA l = true) : noLtA (c :: l) = true := by
  cases l with
  | nil => rfl
  | cons y rest =>
    rw [noLtA_cons_cons]
    simp [hl, hc]

theorem noLtA_tail {c : Char} {l : List Char} (h : noLtA (c :: l) = true) :
    noLtA l = true := by
  cases l with
  | nil => rfl
  | cons y rest =>
    rw [noLtA_cons_cons] at h
    exact (((Bool.and_eq_true _ _).mp h)).2

theorem noLtA_of_no_lt : ∀ {l : List Char}, (∀ x ∈ l, x ≠ '<') → noLtA l = true := by
  intro l
  induction l with
  | nil => intro _; rfl
  | cons c rest ih =>
    intro h
    exact noLtA_cons_of_ne (h c (by simp)) (ih fun x hx => h x (by simp [hx]))

theorem noLtA_append {b : List Char} (hb : noLtA b = true) :
    ∀ {a : List Char}, noLtA a = true →
      (∀ x ∈ a.getLast?, ∀ y ∈ b.head?, ¬(x = '<' ∧ y = 'a')) →
      noLtA (a ++ b) = true := by
  intro a
  induction a with
  | nil => intro _ _; simpa using hb
  | cons c a' ih =>
    intro ha hab
    cases a' with
    | nil =>
      simp only [List.cons_append, List.nil_append]
      cases hbb : b with
      | nil => rfl
      | cons y rest =>
        rw [noLtA_cons_cons]
        have hcon := hab c (by simp) y (by simp [hbb])
        refine (Bool.and_eq_true _ _).mpr ⟨?_, hbb ▸ hb⟩
        by_cases hc : c = '<'
        · have hy : y ≠ 'a' := fun hy => hcon ⟨hc, hy⟩
          simp [hy]
        · simp [hc]
    | cons c2 a'' =>
      simp only [List.cons_append]
      rw [noLtA_cons_cons]
      rw [noLtA_cons_cons] at ha
      obtain ⟨h1, h2⟩ := (Bool.and_eq_true _ _).mp ha
      refine (Bool.and_eq_true _ _).mpr ⟨h1, ?_⟩
      have hab' : ∀ x ∈ (c2 :: a'').getLast?, ∀ y ∈ b.head?, ¬(x = '<' ∧ y = 'a') := by
        intro x hx y hy
        exact hab x (by rw [List.getLast?_cons_cons]; exact hx) y hy
      have := ih h2 hab'
      simpa using this

theorem noLtA_field_append {a b : List Char} (ha : ∀ x ∈ a, x ≠ '<')
    (hb : noLtA b = true) : noLtA (a ++ b) = true := by
  induction a with
  | nil => simpa using hb
  | cons c a' ih =>
    simp only [List.cons_append]
    exact noLtA_cons_of_ne (ha c (by simp)) (ih fun x hx => ha x (by simp [hx]))

theorem noLtA_template_append {a b : List Char} (hna : noLtA a = true)
    (hlast : a.getLast? ≠ some '<') (hb : noLtA b = true) :
    noLtA (a ++ b) = true :=
  noLtA_append hb hna (fun x hx y _ hcon => hlast (by rw [hcon.1] at hx; exact hx))

theorem noLtA_append_headLt {a b : List Char} (hna : noLtA a = true)
    (hb : noLtA b = true) (hhead : b.head? ≠ some 'a') :
    noLtA (a ++ b) = true :=
  noLtA_append hb hna (fun x _ y hy hcon => hhead (by rw [hcon.2] at hy; exact hy))

theorem dropLit_eq_append : ∀ {lit s r : List Char}, dropLit lit s = some r → s = lit ++ r := by
  intro lit
  induction lit with
  | nil => intro s r h; simp [dropLit] at h; simp [h]
  | cons l ls ih =>
    intro s r h
    match s with
    | [] => simp [dropLit] at h
    | c :: cs =>
      by_cases hc : c = l
      · simp only [dropLit, if_pos hc] at h
        rw [List.cons_append, hc, ← ih h]
      · simp [dropLit, hc] at h

theorem findMacrosGo_eq_nil : ∀ (fuel : Nat) {l : List Char},
    noLtA l = true → findMacrosGo fuel l = [] := by
  intro fuel
  induction fuel with
  | zero => intro l _; cases l <;> rfl
  | succ n ih =>
    intro l h
    match l with
    | [] => rfl
    | c :: cs =>
      match hd : dropLit decisionHeader (c :: cs) with
      | some afterH =>
        exfalso
        have hpre := dropLit_eq_append hd
        have hhead : decisionHeader
            = '<' :: 'a' :: "c:structured-macro ac:name=\"decision\"".data := rfl
        rw [hhead, List.cons_append, List.cons_append] at hpre
        rw [hpre, noLtA_cons_cons] at h
        simp at h
      | none =>
        have : findMacrosGo (n + 1) (c :: cs) = findMacrosGo n cs := by
          simp only [findMacrosGo, hd]
        rw [this]
        exact ih (noLtA_tail h)

theorem extract_of_noLtA (today : String) (content : String)
    (h : noLtA content.data = true) :
    extract_decisions_from_storage today content = [] := by
  rw [extract_decisions_from_storage, findMacros, findMacrosGo_eq_nil _ h]
  rfl

theorem replaceChar_id {old : Char} {l : List Char} (h : old ∉ l) (new : List Char) :
    replaceChar old new l = l := by
  induction l with
  | nil => rfl
  | cons c cs ih =>
    have hc : c ≠ old := fun hcc => h (by simp [hcc])
    simp only [replaceChar, if_neg hc]
    rw [ih (fun hm => h (by simp [hm]))]

theorem plainStr_not_mem {s : String} (h : plainStr s = true) (c : Char)
    (hc : plainChar c = false) : c ∉ s.data := by
  intro hm
  have := List.all_eq_true.mp h c hm
  rw [hc] at this
  exact Bool.false_ne_true this

theorem escape_html_id {s : String} (h : plainStr s = true) :
    escape_html s.data = s.data := by
  rw [escape_html]
  rw [replaceChar_id (plainStr_not_mem h '&' (by decide)) _]
  rw [replaceChar_id (plainStr_not_mem h '<' (by decide)) _]
  rw [replaceChar_id (plainStr_not_mem h '>' (by decide)) _]
  rw [replaceChar_id (plainStr_not_mem h '"' (by decide)) _]
  rw [replaceChar_id (plainStr_not_mem h '\'' (by decide)) _]

theorem subBoldGo_id : ∀ (fuel : Nat) {l : List Char}, '*' ∉ l → subBoldGo fuel l = l := by
  intro fuel
  induction fuel with
  | zero => intro l _; cases l <;> rfl
  | succ n ih =>
    intro l h
    match l with
    | [] => rfl
    | c :: rest =>
      have hrest : '*' ∉ rest := fun hm => h (by simp [hm])
      have hstep : subBoldGo (n + 1) (c :: rest) = c :: subBoldGo n rest := by
        rw [subBoldGo.eq_def]
        split <;> first | rfl | simp_all
      rw [hstep, ih hrest]

theorem subEmGo_id : ∀ (fuel : Nat) {l : List Char}, '*' ∉ l → subEmGo fuel l = l := by
  intro fuel
  induction fuel with
  | zero => intro l _; cases l <;> rfl
  | succ n ih =>
    intro l h
    match l with
    | [] => rfl
    | c :: rest =>
      have hrest : '*' ∉ rest := fun hm => h (by simp [hm])
      have hstep : subEmGo (n + 1) (c :: rest) = c :: subEmGo n rest := by
        rw [subEmGo.eq_def]
        split <;> first | rfl | simp_all
      rw [hstep, ih hrest]

theorem subCodeGo_id : ∀ (fuel : Nat) {l : List Char}, '`' ∉ l → subCodeGo fuel l = l := by
  intro fuel
  induction fuel with
  | zero => intro l _; cases l <;> rfl
  | succ n ih =>
    intro l h
    match l with
    | [] => rfl
    | c :: rest =>
      have hrest : '`' ∉ rest := fun hm => h (by simp [hm])
      have hstep : subCodeGo (n + 1) (c :: rest) = c :: subCodeGo n rest := by
        rw [subCodeGo.eq_def]
        split <;> first | rfl | simp_all
      rw [hstep, ih hrest]

theorem mem_trimChars {x : Char} {l : List Char} (h : x ∈ trimChars l) : x ∈ l := by
  have hdw : ∀ (p : Char → Bool) (m : List Char), ∀ y ∈ m.dropWhile p, y ∈ m := by
    intro p m
    induction m with
    | nil => intro y hy; simp [List.dropWhile] at hy
    | cons c cs ih =>
      intro y hy
      by_cases hp : p c
      · simp only [List.dropWhile, hp] at hy
        exact List.mem_cons_of_mem c (ih y hy)
      · simp only [List.dropWhile, hp] at hy
        simpa using hy
  rw [trimChars] at h
  rw [List.mem_reverse] at h
  have h2 := hdw _ _ _ h
  rw [List.mem_reverse] at h2
  exact hdw _ _ _ h2

theorem mem_joinWith {x : Char} {sep : List Char} :
    ∀ {ps : List (List Char)}, x ∈ joinWith sep ps →
      x ∈ sep ∨ ∃ p ∈ ps, x ∈ p := by
  intro ps
  induction ps with
  | nil => intro h; simp [joinWith] at h
  | cons p qs ih =>
    intro h
    cases qs with
    | nil =>
      simp only [joinWith] at h
      exact Or.inr ⟨p, by simp, h⟩
    | cons q qs' =>
      rw [show joinWith sep (p :: q :: qs') = p ++ sep ++ joinWith sep (q :: qs') from rfl] at h
      rcases List.mem_append.mp h with h1 | h1
      · rcases List.mem_append.mp h1 with h2 | h2
        · exact Or.inr ⟨p, by simp, h2⟩
        · exact Or.inl h2
      · rcases ih h1 with h2 | ⟨r, hr1, hr2⟩
        · exact Or.inl h2
        · exact Or.inr ⟨r, by simp [hr1], hr2⟩

theorem mem_splitOnAuxGo {x : Char} {sep : List Char} :
    ∀ (fuel : Nat) {l : List Char} {p : List Char},
      p ∈ splitOnAuxGo sep fuel l → x ∈ p → x ∈ l := by
  intro fuel
  induction fuel with
  | zero =>
    intro l p hp hx
    cases l with
    | nil => simp [splitOnAuxGo] at hp; rw [hp] at hx; simp at hx
    | cons c cs =>
      simp [splitOnAuxGo] at hp
      rw [hp] at hx
      exact hx
  | succ n ih =>
    intro l p hp hx
    cases l with
    | nil =>
      simp [splitOnAuxGo] at hp
      rw [hp] at hx
      simp at hx
    | cons c cs =>
      by_cases hsep : sep = []
      · simp [splitOnAuxGo, hsep] at hp
        rw [hp] at hx
        exact hx
      · rw [show splitOnAuxGo sep (n + 1) (c :: cs)
            = if sep = [] then [c :: cs]
              else
                match dropLit sep (c :: cs) with
                | some rest => [] :: splitOnAuxGo sep n rest
                | none =>
                  match splitOnAuxGo sep n cs with
                  | h :: t => (c :: h) :: t
                  | [] => [[c]] from rfl, if_neg hsep] at hp
        match hd : dropLit sep (c :: cs) with
        | some rest =>
          rw [hd] at hp
          rcases List.mem_cons.mp hp with rfl | hp'
          · simp at hx
          · have := ih hp' hx
            rw [dropLit_eq_append hd]
            exact List.mem_append_right _ this
        | none =>
          rw [hd] at hp
          match hs : splitOnAuxGo sep n cs with
          | h0 :: t0 =>
            rw [hs] at hp
            rcases List.mem_cons.mp hp with rfl | hp'
            · rcases List.mem_cons.mp hx with rfl | hx'
              · simp
              · have := ih (p := h0) (by rw [hs]; simp) hx'
                exact List.mem_cons_of_mem _ this
            · have := ih (p := p) (by rw [hs]; simp [hp']) hx
              exact List.mem_cons_of_mem _ this
          | [] =>
            rw [hs] at hp
            simp at hp
            rw [hp] at hx
            simp at hx
            simp [hx]

theorem plainStr_mem {s : String} (h : plainStr s = true) {x : Char}
    (hx : x ∈ s.data) : plainChar x = true :=
  List.all_eq_true.mp h x hx

theorem plainStr_mem_ne_lt {s : String} (h : plainStr s = true) {x : Char}
    (hx : x ∈ s.data) : x ≠ '<' := by
  intro he
  have hp := plainStr_mem h hx
  rw [he] at hp
  exact absurd hp (by decide)

/-- The participants list contains no `<` when the owner string is plain. -/
theorem participants_no_lt {owner : String} (ho : plainStr owner = true) :
    ∀ x ∈ joinWith ", ".data ((splitOnAux [','] owner.data).map trimChars), x ≠ '<' := by
  intro x hx
  rcases mem_joinWith hx with hsep | ⟨p, hp1, hp2⟩
  · simp at hsep
    rcases hsep with rfl | rfl <;> decide
  · obtain ⟨q, hq1, rfl⟩ := List.mem_map.mp hp1
    rw [splitOnAux] at hq1
    have hxq : x ∈ owner.data := mem_splitOnAuxGo _ hq1 (mem_trimChars hp2)
    exact plainStr_mem_ne_lt ho hxq

/-- Markup rendered by `create_decision_macro_xml` for a decision with plain
fields never contains the adjacent pair `<a`: every `<` it emits opens one
of the fixed tags of the template. -/
theorem render_noLtA (d : Decision)
    (ht : plainStr d.title = true) (ho : plainStr d.owner = true)
    (hde : plainStr d.description = true) (hc : plainOpt d.date_created = true)
    (hu : plainOpt d.date_updated = true) :
    noLtA (create_decision_macro_xml d).data = true := by
  obtain ⟨title, owner, desc, orig, hash, status, dc, du, src⟩ := d
  simp only at ht ho hde hc hu
  have h1 : escape_html desc.data = desc.data := escape_html_id hde
  have h2 : subBold desc.data = desc.data := by
    rw [subBold]; exact subBoldGo_id _ (plainStr_not_mem hde '*' (by decide))
  have h3 : subEm desc.data = desc.data := by
    rw [subEm]; exact subEmGo_id _ (plainStr_not_mem hde '*' (by decide))
  have h4 : subCode desc.data = desc.data := by
    rw [subCode]; exact subCodeGo_id _ (plainStr_not_mem hde '`' (by decide))
  have h5 : replaceChar '\n' "<br/>".data desc.data = desc.data :=
    replaceChar_id (plainStr_not_mem hde '\n' (by decide)) _
  have h6 : escape_html title.data = title.data := escape_html_id ht
  have hdesc_no_lt : ∀ x ∈ desc.data, x ≠ '<' := fun x hx => plainStr_mem_ne_lt hde hx
  have hdesc_noLtA : noLtA desc.data = true := noLtA_of_no_lt hdesc_no_lt
  have hdc_plain : truthyOpt dc = true → plainStr (dc.getD "") = true := by
    intro h
    cases dc with
    | none => simp [truthyOpt] at h
    | some s => simpa [plainOpt, Option.getD] using hc
  have hdu_plain : truthyOpt du = true → plainStr (du.getD "") = true := by
    intro h
    cases du with
    | none => simp [truthyOpt] at h
    | some s => simpa [plainOpt, Option.getD] using hu
  simp only [create_decision_macro_xml, h1, h2, h3, h4, h5, h6, List.append_assoc]
  refine noLtA_template_append (by decide) (by decide) ?_
  refine noLtA_field_append (fun x hx => plainStr_mem_ne_lt ht hx) ?_
  refine noLtA_template_append (by decide) (by decide) ?_
  refine noLtA_field_append (participants_no_lt ho) ?_
  refine noLtA_template_append (by decide) (by decide) ?_
  refine noLtA_append_headLt ?_ (by decide) (by decide)
  by_cases htu : truthyOpt du = true
  · rw [if_pos htu]
    refine noLtA_append_headLt ?_ ?_ (by simp)
    · by_cases htc : truthyOpt dc = true
      · rw [if_pos htc]
        refine noLtA_field_append hdesc_no_lt ?_
        refine noLtA_template_append (by decide) (by decide) ?_
        exact noLtA_of_no_lt (fun x hx => plainStr_mem_ne_lt (hdc_plain htc) hx)
      · rw [if_neg htc]
        exact hdesc_noLtA
    · refine noLtA_template_append (by decide) (by decide) ?_
      exact noLtA_of_no_lt (fun x hx => plainStr_mem_ne_lt (hdu_plain htu) hx)
  · rw [if_neg htu]
    by_cases htc : truthyOpt dc = true
    · rw [if_pos htc]
      refine noLtA_field_append hdesc_no_lt ?_
      refine noLtA_template_append (by decide) (by decide) ?_
      exact noLtA_of_no_lt (fun x hx => plainStr_mem_ne_lt (hdc_plain htc) hx)
    · rw [if_neg htc]
      exact hdesc_noLtA

/-- C4 (amended): the round trip does not reproduce fingerprints — it
re-extracts nothing at all.  For every decision whose fields survive
escaping/unescaping untouched (no HTML metacharacter, formatting marker or
newline in title, owner, description or dates), re-extracting decisions
from the markup `create_decision_macro_xml` renders yields the EMPTY list:
the renderer emits a `<h2>` section and paragraphs, not the
`<ac:structured-macro ac:name="decision"` element the extractor's pattern
requires. -/
theorem roundtrip_extracts_nothing (today : String) (d : Decision)
    (ht : plainStr d.title = true) (ho : plainStr d.owner = true)
    (hde : plainStr d.description = true) (hc : plainOpt d.date_created = true)
    (hu : plainOpt d.date_updated = true) :
    extract_decisions_from_storage today (create_decision_macro_xml d) = [] :=
  extract_of_noLtA today _ (render_noLtA d ht ho hde hc hu)

/-- C4 witness: the amended claim at a concrete decision. -/
theorem roundtrip_extracts_nothing_witness :
    extract_decisions_from_storage "2026-10-12"
      (create_decision_macro_xml
        { title := "Ship v2", owner := "Alice", description := "Ship it.",
          original_text := "", hash_id := "96884881",
          date_created := some "2024-01-01" }) = [] :=
  roundtrip_extracts_nothing "2026-10-12"
    { title := "Ship v2", owner := "Alice", description := "Ship it.",
      original_text := "", hash_id := "96884881", date_created := some "2024-01-01" }
    (by decide) (by decide) (by decide) (by decide) (by decide)

/-- C4 counterexample: for the concrete decision (title `Ship v2`, owner
`Alice`, description `Ship it.`) the rendering-then-extraction round trip
yields no decision whatsoever — in particular none whose (title, owner,
description) triple, and hence fingerprint, matches the original — refuting
the claimed round-trip property. -/
theorem roundtrip_counterexample :
    ¬ ∃ e ∈ extract_decisions_from_storage "2026-10-12"
        (create_decision_macro_xml
          { title := "Ship v2", owner := "Alice", description := "Ship it.",
            original_text := "", hash_id := "96884881",
            date_created := some "2024-01-01" }),
      e.title = "Ship v2" ∧ e.owner = "Alice" ∧ e.description = "Ship it." := by
  decide
